import Mathlib

/-!
# Verification of the hashing-visualization table engine

Shallow embedding of the auto-resizing hash-table engine of `src/script.js`
(the second IIFE, lines 613-1455), covering key normalization, the FNV-1a
hash, prime sizing utilities, the separate-chaining strategy and the
open-addressing strategy family (linear, quadratic, double hashing).

Modelling conventions:
* JavaScript 32-bit unsigned hash arithmetic is `Nat` arithmetic modulo 2^32
  (`Math.imul` composed with `>>> 0` is multiplication mod 2^32; `^` on values
  below 2^32 agrees with `Nat.xor`).
* Characters hash by their UTF-16 code units, as `charCodeAt` does.
* `parseInt(key, 10)` on a string matching `^-?[0-9]+$` runs through IEEE-754
  binary64 values: the digit string's exact integer value is rounded to the
  nearest double (round half to even at 53 significand bits, `Infinity` past
  the overflow bound 2^1024 - 2^970), and `String` of the resulting integral
  double prints the shortest significand that reads back to the same double,
  positionally up to 21 digit positions and in exponential form (`"1e+22"`)
  beyond. All of this is embedded exactly in `Nat` arithmetic
  (`roundToDouble53`, `jsRenderNat`); below 2^53 the pipeline is the identity
  on the digits, which covers every key this engine's scenarios store.
* Float load-factor thresholds are embedded as exact rational comparisons
  cross-multiplied into integers (`load > 0.68` becomes `25*count > 17*size`).
  For the sizes this engine uses (3..199) the double rounding of the literals
  never changes the comparison outcome, because `count/size` can only equal
  the threshold when the denominator divides the size, which the prime /
  bounded sizes rule out.
* `count` and `tombstones` are `Int`, matching the unguarded `+= 1 / -= 1`
  updates of the source.
* The fatal `throw new Error('Rehash failed to allocate slot.')` and the
  unbounded recursive retry of `insert` are modelled with `Option` results
  and an explicit fuel parameter: `none` means the call does not return
  normally at that recursion budget.
-/

set_option exponentiation.threshold 1100

/-- The set of characters removed by JavaScript `String.prototype.trim`
(WhiteSpace and LineTerminator code points). -/
def jsIsWhitespace (c : Char) : Bool :=
  c.toNat = 9 ∨ c.toNat = 10 ∨ c.toNat = 11 ∨ c.toNat = 12 ∨ c.toNat = 13 ∨
  c.toNat = 32 ∨ c.toNat = 160 ∨ c.toNat = 0x1680 ∨
  (0x2000 ≤ c.toNat ∧ c.toNat ≤ 0x200A) ∨
  c.toNat = 0x2028 ∨ c.toNat = 0x2029 ∨ c.toNat = 0x202F ∨
  c.toNat = 0x205F ∨ c.toNat = 0x3000 ∨ c.toNat = 0xFEFF

/-- JavaScript `String.prototype.trim`. -/
def jsTrim (s : String) : String :=
  String.mk (((s.data.dropWhile jsIsWhitespace).reverse.dropWhile jsIsWhitespace).reverse)

/-- The test `/^-?\d+$/.test(key)`: an optional leading minus followed by at
least one ASCII digit and nothing else. -/
def isIntLiteral (s : String) : Bool :=
  match s.data with
  | '-' :: ds => !ds.isEmpty && ds.all Char.isDigit
  | ds => !ds.isEmpty && ds.all Char.isDigit

/-- Decimal value of a digit list (most significant first). -/
def decValue (ds : List Char) : Nat :=
  ds.foldl (fun a c => a * 10 + (c.toNat - 48)) 0

/-- Digit-extraction loop of `natDigits`, with structural fuel so the kernel
can evaluate it; `natDigits` supplies fuel `n + 1`, always sufficient because
the argument shrinks by a factor of 10 each step. -/
def natDigitsAux : Nat → Nat → List Char
  | 0, _ => []
  | fuel + 1, n =>
    if n < 10 then [Char.ofNat (48 + n)]
    else natDigitsAux fuel (n / 10) ++ [Char.ofNat (48 + n % 10)]

/-- Decimal digit characters of a natural number, most significant first
(the digits `String(n)` prints). -/
def natDigits (n : Nat) : List Char := natDigitsAux (n + 1) n

/-- Binary length of a natural number (`0` for `0`), with structural fuel in
the first argument so the kernel can evaluate it; fuel `n` suffices for input
`n` because the argument halves each step and `n = 0` returns at any fuel. -/
def bitLenAux : Nat → Nat → Nat
  | 0, _ => 0
  | fuel + 1, n => if n = 0 then 0 else bitLenAux fuel (n / 2) + 1

/-- Binary length: the unique `b` with `2 ^ (b - 1) ≤ n < 2 ^ b` for `n > 0`. -/
def bitLen (n : Nat) : Nat := bitLenAux n n

/-- Rounding of a natural number to the nearest IEEE-754 binary64 value (round
half to even at 53 significand bits), returned as the exact integer value of
that double. This is what `parseInt` does to the exact value of a digit
string: identity below `2 ^ 53`, a multiple of `2 ^ (bitLen n - 53)` above. -/
def roundToDouble53 (n : Nat) : Nat :=
  if n < 2 ^ 53 then n
  else
    let e := bitLen n - 53
    let q := n / 2 ^ e
    let r := n % 2 ^ e
    if 2 * r > 2 ^ e ∨ (2 * r = 2 ^ e ∧ q % 2 = 1) then (q + 1) * 2 ^ e
    else q * 2 ^ e

/-- The `k`-digit decimal significand nearest to `v` (ties to the even
significand), scaled by `10 ^ (n - k)` where `n` is `v`'s digit count: the
candidate ECMAScript `Number::toString` tests when looking for the shortest
decimal that reads back to the double `v`. -/
def shortestCand (v n k : Nat) : Nat :=
  if 2 * (v % 10 ^ (n - k)) > 10 ^ (n - k) ∨
      (2 * (v % 10 ^ (n - k)) = 10 ^ (n - k) ∧ (v / 10 ^ (n - k)) % 2 = 1) then
    v / 10 ^ (n - k) + 1
  else v / 10 ^ (n - k)

/-- Search of ECMAScript `Number::toString` for an integral double value `v`:
the smallest digit count `k` whose nearest `k`-digit decimal to `v` reads back
(through double rounding) to `v` itself. Returns `(s, e)` with rendered value
`s * 10 ^ e`; at `k = n` (or exhausted fuel) the exact digits of `v` are used,
which always read back to `v`. -/
def shortestAux (v n : Nat) : Nat → Nat → Nat × Nat
  | _, 0 => (v, 0)
  | k, fuel + 1 =>
    if n ≤ k then (v, 0)
    else
      if roundToDouble53 (shortestCand v n k * 10 ^ (n - k)) = v then
        (shortestCand v n k, n - k)
      else shortestAux v n (k + 1) fuel

/-- Shortest reading-back decimal for the integral double value `v`, as a
significand/power-of-ten pair. -/
def shortestRepr (v : Nat) : Nat × Nat :=
  shortestAux v (natDigits v).length 1 (natDigits v).length

/-- Move trailing zero digits of the significand into the exponent (fuel in
the first argument; `s` suffices since each step divides by 10). -/
def stripTZAux : Nat → Nat → Nat → Nat × Nat
  | 0, s, e => (s, e)
  | fuel + 1, s, e =>
    if s % 10 = 0 ∧ s ≠ 0 then stripTZAux fuel (s / 10) (e + 1) else (s, e)

/-- Normalised significand/exponent pair: trailing zeros of the significand
moved into the exponent, as ECMAScript's minimal-`k` choice has them. -/
def stripTZ (p : Nat × Nat) : Nat × Nat := stripTZAux p.1 p.1 p.2

/-- ECMAScript `String(v)` for a positive integral double value `v`
(`Number::toString`, radix 10): the shortest significand whose decimal reads
back to `v`, printed positionally when the value spans at most 21 digit
positions and in exponential form (`"1e+22"`, `"1.5e+23"`) beyond. -/
def jsRenderNat (v : Nat) : List Char :=
  let sr := stripTZ (shortestRepr v)
  let ds := natDigits sr.1
  let n := ds.length + sr.2
  if n ≤ 21 then ds ++ List.replicate sr.2 '0'
  else
    match ds with
    | [] => []
    | c :: rest =>
      (c :: if rest.isEmpty then ([] : List Char) else '.' :: rest) ++
        'e' :: '+' :: natDigits (n - 1)

/-- The smallest magnitude that double rounding sends to `Infinity`: half an
ulp above the largest finite binary64 value. -/
def jsOverflowBound : Nat := 2 ^ 1024 - 2 ^ 970

/-- `String(parseInt(key, 10))` for a matched integer literal, given the sign
read from the text and the exact magnitude of its digits: the magnitude is
rounded to the nearest double (`Infinity` past the overflow bound) and
rendered as ECMAScript renders numbers; `parseInt("-0", 10)` is `-0`, and
`String(-0)` is `"0"`. -/
def renderParsedInt (neg : Bool) (m : Nat) : String :=
  if jsOverflowBound ≤ m then (if neg then "-Infinity" else "Infinity")
  else if roundToDouble53 m = 0 then "0"
  else if neg then String.mk ('-' :: jsRenderNat (roundToDouble53 m))
  else String.mk (jsRenderNat (roundToDouble53 m))

/-- `String(parseInt(key, 10))` on a string matching `^-?[0-9]+$`: split the
optional sign off the text and render the parsed double. -/
def jsStringOfParseInt (key : String) : String :=
  match key.data with
  | '-' :: ds => renderParsedInt true (decValue ds)
  | ds => renderParsedInt false (decValue ds)

/-- `BaseStrategy.normaliseKey` (script.js:684-693): trim, and collapse
integer literals through `String(parseInt(key, 10))`, the double-valued
pipeline above. -/
def normaliseKey (rawKey : String) : String :=
  let key := jsTrim rawKey
  if isIntLiteral key then jsStringOfParseInt key else key

/-- Spec-side reading of `parseInt(key, 10)` used to state C9, with exact
unbounded-integer semantics ("the parsed integer" of the spec's words);
compared in C9 against the code's double-valued pipeline, with which it
agrees exactly below `2 ^ 53`. -/
def exactIntVal (s : String) : Int :=
  match s.data with
  | '-' :: ds => -(decValue ds : Int)
  | ds => (decValue ds : Int)

/-- Spec-side canonical base-10 rendering of an integer used to state C9
("the canonical base-10 string of the parsed integer"): sign and exact
digits, never exponential; a single zero, so no `"-0"`. -/
def canonicalIntString (i : Int) : String :=
  if i < 0 then String.mk ('-' :: natDigits i.natAbs)
  else String.mk (natDigits i.toNat)

/-- UTF-16 code units of a character, as `charCodeAt` enumerates them. -/
def utf16Codes (c : Char) : List Nat :=
  if c.toNat < 65536 then [c.toNat]
  else [55296 + (c.toNat - 65536) / 1024, 56320 + (c.toNat - 65536) % 1024]

/-- One step of the FNV-1a loop: `hash ^= code; hash = Math.imul(hash, 0x01000193)`,
all modulo 2^32. -/
def fnvStep (h code : Nat) : Nat := ((h ^^^ code) * 16777619) % 4294967296

/-- `BaseStrategy.hashCode` (script.js:695-703): FNV-1a over the UTF-16 code
units of the normalised key, 32-bit unsigned. -/
def hashCode (rawKey : String) : Nat :=
  let key := normaliseKey rawKey
  ((key.data.map utf16Codes).flatten).foldl fnvStep 2166136261

/-- `BaseStrategy.primaryIndex` (script.js:705-707). -/
def primaryIndex (rawKey : String) (size : Nat) : Nat :=
  hashCode rawKey % size

/-- `BaseStrategy.secondaryStep` (script.js:709-714). -/
def secondaryStep (rawKey : String) (size : Nat) : Nat :=
  if size ≤ 1 then 1
  else
    let h := hashCode rawKey
    let modBase := if size - 1 = 0 then 1 else size - 1
    let step := 1 + h % modBase
    if step = 0 then 1 else step

/-- `clampTableSize` (script.js:633-636) on integer input: clamp to [3, 199]. -/
def clampTableSize (n : Nat) : Nat := min (max n 3) 199

/-- Trial-division loop of `isPrime` (script.js:638-647), testing factors
`i, i+2` for `i = 5, 11, 17, ...` while `i*i ≤ n`. Structural fuel `n` is
sufficient since `i` advances by 6 each step and the loop exits once
`i*i > n`. -/
def isPrimeAux : Nat → Nat → Nat → Bool
  | 0, _, _ => true
  | fuel + 1, n, i =>
    if n < i * i then true
    else if n % i = 0 ∨ n % (i + 2) = 0 then false
    else isPrimeAux fuel n (i + 6)

/-- `isPrime` (script.js:638-647). -/
def isPrimeJS (n : Nat) : Bool :=
  if n ≤ 1 then false
  else if n ≤ 3 then true
  else if n % 2 = 0 ∨ n % 3 = 0 then false
  else isPrimeAux n n 5

/-- Upward odd scan of `nextPrime` (script.js:649-657); fuel 200 covers the
whole candidate range 3..199 stepped by 2. -/
def nextPrimeAux : Nat → Nat → Nat
  | 0, _ => 199
  | fuel + 1, c =>
    if 199 < c then 199
    else if isPrimeJS c then c
    else nextPrimeAux fuel (c + 2)

/-- `nextPrime` (script.js:649-657): smallest prime ≥ clamp(n, 3, 199) found by
odd steps, capped at 199. -/
def nextPrime (n : Nat) : Nat :=
  let c := clampTableSize n
  nextPrimeAux 200 (if c % 2 = 0 then c + 1 else c)

/-- Downward odd scan of `previousPrime` (script.js:659-668); fuel 200 covers
the whole candidate range stepped by 2. -/
def previousPrimeAux : Nat → Nat → Nat
  | 0, _ => 3
  | fuel + 1, c =>
    if c < 3 then 3
    else if isPrimeJS c then c
    else previousPrimeAux fuel (c - 2)

/-- `previousPrime` (script.js:659-668). -/
def previousPrime (n : Nat) : Nat :=
  let c := clampTableSize n
  if c ≤ 3 then 3
  else previousPrimeAux 200 (if c % 2 = 0 then c - 1 else c)

example : nextPrime 12 = 13 := by decide
example : nextPrime 319 = 199 := by decide
example : previousPrime 10 = 7 := by decide
example : normaliseKey " 007" = "7" := by decide
example : hashCode "1" = 873244444 := by decide
example : primaryIndex "1402" 7 = 1 := by decide

/-- A slot of an open-addressing table: `null`, the `TOMBSTONE` sentinel, or a
stored key (script.js stores the key string itself in the slot). -/
inductive Slot where
  | empty : Slot
  | tomb : Slot
  | occ (key : String) : Slot
deriving DecidableEq

/-- The probe-sequence variant: `LinearProbingStrategy`,
`QuadraticProbingStrategy` or `DoubleHashingStrategy`. -/
inductive PVariant where
  | linear : PVariant
  | quadratic : PVariant
  | doubleH : PVariant
deriving DecidableEq

/-- Mutable state of `OpenAddressingStrategy` (script.js:884-894). -/
structure OAState where
  size : Nat
  table : List Slot
  count : Int
  tombstones : Int
deriving DecidableEq

/-- Reading `this.table[index]` (indices are always reduced mod `size`). -/
def slotAt (t : List Slot) (i : Nat) : Slot := t.getD i .empty

/-- `probeInfo` (script.js:912-915, 1179-1183, 1198-1201): the slot visited at
a given attempt. The double-hashing context computes `base` and `step` once
per operation; both depend only on the key and the current size, so this is
the same function of `attempt`. -/
def probeIndex (v : PVariant) (rawKey : String) (size : Nat) (attempt : Nat) : Nat :=
  let base := primaryIndex rawKey size
  match v with
  | .linear => (base + attempt) % size
  | .quadratic => (base + attempt * attempt) % size
  | .doubleH => (base + attempt * secondaryStep rawKey size) % size

/-- Probe scan of `directInsert` (script.js:917-930), from attempt `a` with
`remaining` attempts left; `none` models the thrown
`Error('Rehash failed to allocate slot.')`. -/
def directInsertLoop (v : PVariant) (key : String) (st : OAState) :
    Nat → Nat → Option OAState
  | 0, _ => none
  | remaining + 1, a =>
    let i := probeIndex v key st.size a
    match slotAt st.table i with
    | .occ _ => directInsertLoop v key st remaining (a + 1)
    | e =>
      some { st with
        table := st.table.set i (.occ key),
        count := st.count + 1,
        tombstones := if e = .tomb then st.tombstones - 1 else st.tombstones }

/-- `OpenAddressingStrategy.directInsert` (script.js:917-930). -/
def oaDirectInsert (v : PVariant) (st : OAState) (key : String) : Option OAState :=
  directInsertLoop v key st st.size 0

/-- The keys of all `Occupied` slots, in slot order — the `entries` collected
by `rehash` (script.js:934-939). -/
def collectEntries (t : List Slot) : List String :=
  t.filterMap fun s => match s with | .occ k => some k | _ => none

/-- The `entries.forEach((entry) => this.directInsert(entry))` replay of
`rehash`; a thrown reinsertion aborts the whole call. -/
def reinsertAll (v : PVariant) : List String → OAState → Option OAState
  | [], st => some st
  | k :: ks, st =>
    match oaDirectInsert v st k with
    | none => none
    | some st' => reinsertAll v ks st'

/-- `OpenAddressingStrategy.rehash` (script.js:932-947). -/
def oaRehash (v : PVariant) (st : OAState) (newSize : Nat) : Option OAState :=
  reinsertAll v (collectEntries st.table)
    { size := newSize, table := List.replicate newSize .empty, count := 0, tombstones := 0 }

/-- `ensureCapacityBeforeInsert` (script.js:949-974). `load > 0.68` is the
exact rational comparison `25*count > 17*size`; the compaction test
`occupancy > 0.85 && tombstones > size*0.15` becomes
`20*(count+tombstones) > 17*size && 20*tombstones > 3*size`. -/
def oaEnsureCapacity (v : PVariant) (st : OAState) : Option OAState :=
  if 25 * st.count > 17 * (st.size : Int) then
    if nextPrime ((8 * st.size + 4) / 5) ≠ st.size then
      oaRehash v st (nextPrime ((8 * st.size + 4) / 5))
    else some st
  else if 20 * (st.count + st.tombstones) > 17 * (st.size : Int) ∧
      20 * st.tombstones > 3 * (st.size : Int) then
    oaRehash v st st.size
  else some st

/-- `maintainAfterInsert` (script.js:976-1001). `load > 0.72` is
`25*count > 18*size`, `ceil(size*1.35)` is `(27*size+19)/20`, and the
compaction test `occupancy > 0.88 && tombstones > size*0.18` becomes
`25*(count+tombstones) > 22*size && 50*tombstones > 9*size`. When the growth
branch computes a target equal to the current size, control falls through to
the compaction test, exactly as in the source. -/
def oaMaintainAfterInsert (v : PVariant) (st : OAState) : Option OAState :=
  if 25 * st.count > 18 * (st.size : Int) ∧ nextPrime ((27 * st.size + 19) / 20) ≠ st.size then
    oaRehash v st (nextPrime ((27 * st.size + 19) / 20))
  else if 25 * (st.count + st.tombstones) > 22 * (st.size : Int) ∧
      50 * st.tombstones > 9 * (st.size : Int) then
    oaRehash v st st.size
  else some st

/-- `maintainAfterRemoval` (script.js:1003-1031). Both branches sit inside
`if (this.size > MIN_TABLE_SIZE)`. `load < 0.3` is `10*count < 3*size`,
`floor(size/1.6)` is `5*size/8`, and `tombstones > size*0.25` is
`4*tombstones > size`. When the shrink condition holds but the target is not
smaller than the current size, control falls through to the compaction test,
matching the source's early `return` placement. -/
def oaMaintainAfterRemoval (v : PVariant) (st : OAState) : Option OAState :=
  if st.size ≤ 3 then some st
  else if st.count > 0 ∧ 10 * st.count < 3 * (st.size : Int) ∧
      previousPrime (max 3 (5 * st.size / 8)) < st.size then
    oaRehash v st (previousPrime (max 3 (5 * st.size / 8)))
  else if 4 * st.tombstones > (st.size : Int) ∧ st.tombstones > st.count then
    oaRehash v st st.size
  else some st

/-- Operation statuses surfaced to the renderer (the public status enum). -/
inductive Status where
  | inserted | duplicate | found | missing | removed | full
deriving DecidableEq

/-- Outcome of the probe loop of `insert` (script.js:1041-1069): a duplicate
hit, a placement, or exhaustion of all `size` attempts carrying the recorded
`firstTombstone` (if any). -/
inductive InsLoopOut where
  | dup (st : OAState) : InsLoopOut
  | placed (st : OAState) : InsLoopOut
  | exhausted (firstTombstone : Option Nat) : InsLoopOut
deriving DecidableEq

/-- The probe loop of `insert` (script.js:1040-1069), from attempt `a` with
`remaining` attempts left and recorded first tombstone `ft`. -/
def oaInsertLoop (v : PVariant) (key : String) (st : OAState) :
    Nat → Nat → Option Nat → InsLoopOut
  | 0, _, ft => .exhausted ft
  | remaining + 1, a, ft =>
    let i := probeIndex v key st.size a
    match slotAt st.table i with
    | .occ k =>
      if k = key then .dup st
      else oaInsertLoop v key st remaining (a + 1) ft
    | .empty =>
      let target := ft.getD i
      let prev := slotAt st.table target
      .placed { st with
        table := st.table.set target (.occ key),
        count := st.count + 1,
        tombstones := if prev = .tomb then st.tombstones - 1 else st.tombstones }
    | .tomb =>
      oaInsertLoop v key st remaining (a + 1) (if ft = none then some i else ft)

/-- Result of an open-addressing operation (trace and highlights omitted). -/
structure OAResult where
  state : OAState
  status : Status
deriving DecidableEq

/-- `OpenAddressingStrategy.insert` (script.js:1033-1092). `fuel` bounds the
depth of the saturated-table recursive retry (line 1086): a result of `none`
means the call threw during a rehash or did not return within that recursion
budget. -/
def oaInsert (v : PVariant) : Nat → OAState → String → Option OAResult
  | 0, _, _ => none
  | fuel + 1, st0, rawKey =>
    let key := normaliseKey rawKey
    match oaEnsureCapacity v st0 with
    | none => none
    | some st =>
      match oaInsertLoop v key st st.size 0 none with
      | .dup st1 => some { state := st1, status := .duplicate }
      | .placed st1 =>
        (oaMaintainAfterInsert v st1).map fun st2 => { state := st2, status := .inserted }
      | .exhausted (some ftIdx) =>
        let prev := slotAt st.table ftIdx
        let st1 : OAState := { st with
          table := st.table.set ftIdx (.occ key),
          count := st.count + 1,
          tombstones := if prev = .tomb then st.tombstones - 1 else st.tombstones }
        (oaMaintainAfterInsert v st1).map fun st2 => { state := st2, status := .inserted }
      | .exhausted none =>
        match oaRehash v st (nextPrime ((8 * st.size + 4) / 5)) with
        | none => none
        | some st1 => oaInsert v fuel st1 key

/-- The probe loop of `search` (script.js:1100-1114). -/
def oaSearchLoop (v : PVariant) (key : String) (st : OAState) : Nat → Nat → Status
  | 0, _ => .missing
  | remaining + 1, a =>
    let i := probeIndex v key st.size a
    match slotAt st.table i with
    | .occ k => if k = key then .found else oaSearchLoop v key st remaining (a + 1)
    | .empty => .missing
    | .tomb => oaSearchLoop v key st remaining (a + 1)

/-- `OpenAddressingStrategy.search` (script.js:1094-1117): reads the table and
returns a status; it performs no writes and triggers no rehash, which the
embedding reflects by not producing a state at all. -/
def oaSearch (v : PVariant) (st : OAState) (rawKey : String) : Status :=
  oaSearchLoop v (normaliseKey rawKey) st st.size 0

/-- The probe loop of `remove` (script.js:1125-1145). -/
def oaRemoveLoop (v : PVariant) (key : String) (st : OAState) :
    Nat → Nat → Option (OAState × Status)
  | 0, _ => some (st, .missing)
  | remaining + 1, a =>
    let i := probeIndex v key st.size a
    match slotAt st.table i with
    | .occ k =>
      if k = key then
        let st1 : OAState := { st with
          table := st.table.set i .tomb,
          count := st.count - 1,
          tombstones := st.tombstones + 1 }
        (oaMaintainAfterRemoval v st1).map fun st2 => (st2, .removed)
      else oaRemoveLoop v key st remaining (a + 1)
    | .empty => some (st, .missing)
    | .tomb => oaRemoveLoop v key st remaining (a + 1)

/-- `OpenAddressingStrategy.remove` (script.js:1119-1146). -/
def oaRemove (v : PVariant) (st : OAState) (rawKey : String) : Option (OAState × Status) :=
  oaRemoveLoop v (normaliseKey rawKey) st st.size 0

/-- A fresh open-addressing table (`clear`, script.js:890-894). -/
def oaFresh (size : Nat) : OAState :=
  { size := size, table := List.replicate size .empty, count := 0, tombstones := 0 }

/-- Mutable state of `SeparateChainingStrategy` (script.js:725-734). -/
structure ChainState where
  size : Nat
  table : List (List String)
  count : Int
deriving DecidableEq

/-- `SeparateChainingStrategy.insertInternal` (script.js:736-740). -/
def chInsertInternal (st : ChainState) (key : String) : ChainState :=
  let i := primaryIndex key st.size
  { st with
    table := st.table.set i (st.table.getD i [] ++ [key]),
    count := st.count + 1 }

/-- `SeparateChainingStrategy.rehash` (script.js:742-751): flatten all chains
in bucket order and replay them through `insertInternal` at the new size. -/
def chRehash (st : ChainState) (newSize : Nat) : ChainState :=
  (st.table.flatten).foldl chInsertInternal
    { size := newSize, table := List.replicate newSize [], count := 0 }

/-- The `maxChain` scan of `maintainAfterInsert` (script.js:756-759). -/
def chMaxChain (st : ChainState) : Nat :=
  st.table.foldl (fun m b => max m b.length) 0

/-- `SeparateChainingStrategy.maintainAfterInsert` (script.js:753-772).
`load > 1.15` is the exact rational comparison `20*count > 23*size`; the
growth target `nextPrime(ceil(size*1.6))` is `nextPrime((8*size+4)/5)`. -/
def chMaintainAfterInsert (st : ChainState) : ChainState :=
  if (20 * st.count > 23 * (st.size : Int) ∨ chMaxChain st > 4) ∧
      nextPrime ((8 * st.size + 4) / 5) ≠ st.size then
    chRehash st (nextPrime ((8 * st.size + 4) / 5))
  else st

/-- `SeparateChainingStrategy.insert` (script.js:791-810). -/
def chInsert (st : ChainState) (rawKey : String) : ChainState × Status :=
  let key := normaliseKey rawKey
  let i := primaryIndex key st.size
  let bucket := st.table.getD i []
  if key ∈ bucket then (st, .duplicate)
  else
    let st1 : ChainState := { st with
      table := st.table.set i (bucket ++ [key]),
      count := st.count + 1 }
    (chMaintainAfterInsert st1, .inserted)

/-- `SeparateChainingStrategy.search` (script.js:812-828): a pure bucket scan. -/
def chSearch (st : ChainState) (rawKey : String) : Status :=
  let key := normaliseKey rawKey
  if key ∈ st.table.getD (primaryIndex key st.size) [] then .found else .missing

/-- A fresh chaining table (`clear`, script.js:731-734). -/
def chFresh (size : Nat) : ChainState :=
  { size := size, table := List.replicate size [], count := 0 }

section ModelChecks

/-- Shorthand for a run of inserts used in the concrete scenarios below. -/
def oaInsertMany (v : PVariant) (st : OAState) (keys : List String) : Option OAState :=
  keys.foldlM (fun s k => (oaInsert v 10 s k).map OAResult.state) st

example :
    (oaInsertMany .quadratic (oaFresh 17)
      ["1402", "2168", "1026", "480", "2444", "1811"]).map OAState.count = some 6 := by decide

example :
    ((oaInsertMany .quadratic (oaFresh 17)
      ["1402", "2168", "1026", "480", "2444", "1811"]).bind
        fun st => oaRemove .quadratic st "1811") = none := by decide

end ModelChecks

section ListLemmas

theorem getD_set_self {α : Type} (l : List α) (i : Nat) (x d : α) (h : i < l.length) :
    (l.set i x).getD i d = x := by
  induction l generalizing i with
  | nil => simp at h
  | cons a l ih =>
    cases i with
    | zero => rfl
    | succ n =>
      simp only [List.set, List.getD_cons_succ]
      exact ih n (by simpa using h)

theorem getD_set_ne {α : Type} (l : List α) (i j : Nat) (x d : α) (h : i ≠ j) :
    (l.set i x).getD j d = l.getD j d := by
  induction l generalizing i j with
  | nil => simp
  | cons a l ih =>
    cases i with
    | zero =>
      cases j with
      | zero => exact absurd rfl h
      | succ m => rfl
    | succ n =>
      cases j with
      | zero => rfl
      | succ m =>
        simp only [List.set, List.getD_cons_succ]
        exact ih n m (by omega)

theorem getD_mem {α : Type} (l : List α) (i : Nat) (d : α) (h : i < l.length) :
    l.getD i d ∈ l := by
  induction l generalizing i with
  | nil => simp at h
  | cons a l ih =>
    cases i with
    | zero => simp [List.getD]
    | succ n =>
      simp only [List.getD_cons_succ]
      exact List.mem_cons_of_mem a (ih n (by simpa using h))

theorem mem_iff_getD {α : Type} (l : List α) (x d : α) :
    x ∈ l ↔ ∃ i, i < l.length ∧ l.getD i d = x := by
  constructor
  · intro hx
    induction l with
    | nil => simp at hx
    | cons a l ih =>
      rcases List.mem_cons.mp hx with h | h
      · exact ⟨0, by simp, by simp [List.getD, h.symm]⟩
      · obtain ⟨i, hi, hg⟩ := ih h
        exact ⟨i + 1, by simpa using hi, by simpa [List.getD_cons_succ] using hg⟩
  · rintro ⟨i, hi, rfl⟩
    exact getD_mem l i d hi

end ListLemmas

section SlotLemmas

/-- Whether a slot stores a key. -/
def isOcc : Slot → Bool
  | .occ _ => true
  | _ => false

theorem isOcc_iff (s : Slot) : isOcc s = true ↔ ∃ k, s = .occ k := by
  cases s <;> simp [isOcc]

theorem not_isOcc_iff (s : Slot) : isOcc s = false ↔ s = .empty ∨ s = .tomb := by
  cases s <;> simp [isOcc]

theorem slotAt_set_self (t : List Slot) (i : Nat) (x : Slot) (h : i < t.length) :
    slotAt (t.set i x) i = x := getD_set_self t i x .empty h

theorem slotAt_set_ne (t : List Slot) (i j : Nat) (x : Slot) (h : i ≠ j) :
    slotAt (t.set i x) j = slotAt t j := getD_set_ne t i j x .empty h

theorem mem_collectEntries (t : List Slot) (k : String) :
    k ∈ collectEntries t ↔ Slot.occ k ∈ t := by
  simp only [collectEntries, List.mem_filterMap]
  constructor
  · rintro ⟨s, hs, h⟩
    cases s with
    | occ k' => simp_all
    | empty => simp at h
    | tomb => simp at h
  · intro h
    exact ⟨.occ k, h, rfl⟩

theorem collectEntries_length_allOcc (t : List Slot) (h : ∀ s ∈ t, isOcc s = true) :
    (collectEntries t).length = t.length := by
  induction t with
  | nil => rfl
  | cons s t ih =>
    have hs := h s (List.mem_cons_self s t)
    obtain ⟨k, rfl⟩ := (isOcc_iff s).mp hs
    simpa [collectEntries] using ih fun x hx => h x (List.mem_cons_of_mem _ hx)

/-- Index set of occupied slots. -/
def occIdx (t : List Slot) : Finset Nat :=
  (Finset.range t.length).filter fun i => isOcc (slotAt t i) = true

theorem mem_occIdx (t : List Slot) (i : Nat) :
    i ∈ occIdx t ↔ i < t.length ∧ isOcc (slotAt t i) = true := by
  simp [occIdx]

theorem occIdx_set_occ (t : List Slot) (i : Nat) (k : String)
    (hi : i < t.length) (hfree : isOcc (slotAt t i) = false) :
    occIdx (t.set i (.occ k)) = insert i (occIdx t) := by
  ext j
  by_cases hji : j = i
  · subst hji
    simp [mem_occIdx, List.length_set, slotAt_set_self t j _ hi, hi, isOcc]
  · simp only [mem_occIdx, Finset.mem_insert, List.length_set,
      slotAt_set_ne t i j _ fun h => hji h.symm]
    tauto

theorem not_mem_occIdx_of_free (t : List Slot) (i : Nat) (hfree : isOcc (slotAt t i) = false) :
    i ∉ occIdx t := by
  rw [mem_occIdx]
  simp [hfree]

theorem occIdx_card_set_occ (t : List Slot) (i : Nat) (k : String)
    (hi : i < t.length) (hfree : isOcc (slotAt t i) = false) :
    (occIdx (t.set i (.occ k))).card = (occIdx t).card + 1 := by
  rw [occIdx_set_occ t i k hi hfree,
    Finset.card_insert_of_not_mem (not_mem_occIdx_of_free t i hfree)]

/-- If every index of the table is occupied-free of room, i.e. the occupied
index set is the whole range, every slot is occupied. -/
theorem allOcc_of_occIdx_card (t : List Slot) (h : (occIdx t).card = t.length) :
    ∀ i < t.length, isOcc (slotAt t i) = true := by
  intro i hi
  have hsub : occIdx t ⊆ Finset.range t.length := Finset.filter_subset _ _
  have heq : occIdx t = Finset.range t.length :=
    Finset.eq_of_subset_of_card_le hsub (by rw [h, Finset.card_range])
  have : i ∈ occIdx t := heq ▸ Finset.mem_range.mpr hi
  exact ((mem_occIdx t i).mp this).2

/-- If not every slot is occupied there is a free index. -/
theorem exists_free_of_card_lt (t : List Slot) (h : (occIdx t).card < t.length) :
    ∃ i < t.length, isOcc (slotAt t i) = false := by
  by_contra hall
  push_neg at hall
  have : Finset.range t.length ⊆ occIdx t := by
    intro i hi
    rw [mem_occIdx]
    have hi' := Finset.mem_range.mp hi
    have := hall i hi'
    exact ⟨hi', by simpa using this⟩
  have := Finset.card_le_card this
  rw [Finset.card_range] at this
  omega

end SlotLemmas

section DirectInsertLemmas

theorem probeIndex_lt (v : PVariant) (key : String) (size a : Nat) (h : 0 < size) :
    probeIndex v key size a < size := by
  cases v <;> simp only [probeIndex] <;> exact Nat.mod_lt _ h

theorem directInsertLoop_eq_some (v : PVariant) (key : String) (st : OAState) :
    ∀ r a st', directInsertLoop v key st r a = some st' →
      ∃ d, d < r ∧
        (∀ j, j < d → isOcc (slotAt st.table (probeIndex v key st.size (a + j))) = true) ∧
        isOcc (slotAt st.table (probeIndex v key st.size (a + d))) = false ∧
        st' = { st with
          table := st.table.set (probeIndex v key st.size (a + d)) (.occ key),
          count := st.count + 1,
          tombstones := if slotAt st.table (probeIndex v key st.size (a + d)) = .tomb
                        then st.tombstones - 1 else st.tombstones } := by
  intro r
  induction r with
  | zero => intro a st' h; simp [directInsertLoop] at h
  | succ r ih =>
    intro a st' h
    simp only [directInsertLoop] at h
    cases hslot : slotAt st.table (probeIndex v key st.size a) with
    | occ k =>
      rw [hslot] at h
      simp only at h
      obtain ⟨d, hd, hpre, hfree, hst⟩ := ih (a + 1) st' h
      refine ⟨d + 1, by omega, ?_, ?_, ?_⟩
      · intro j hj
        cases j with
        | zero => simp [hslot, isOcc]
        | succ j' =>
          have he : a + (j' + 1) = a + 1 + j' := by omega
          rw [he]
          exact hpre j' (by omega)
      · have he : a + (d + 1) = a + 1 + d := by omega
        rw [he]; exact hfree
      · have he : a + (d + 1) = a + 1 + d := by omega
        rw [he]; exact hst
    | empty =>
      rw [hslot] at h
      simp only [Option.some.injEq] at h
      refine ⟨0, by omega, ?_, ?_, ?_⟩
      · intro j hj; exact absurd hj (by omega)
      · simp [Nat.add_zero, hslot, isOcc]
      · rw [Nat.add_zero, hslot, ← h]
    | tomb =>
      rw [hslot] at h
      simp only [Option.some.injEq] at h
      refine ⟨0, by omega, ?_, ?_, ?_⟩
      · intro j hj; exact absurd hj (by omega)
      · simp [Nat.add_zero, hslot, isOcc]
      · rw [Nat.add_zero, hslot, ← h]
        simp

theorem directInsertLoop_isSome (v : PVariant) (key : String) (st : OAState) :
    ∀ r a, (∃ d, d < r ∧ isOcc (slotAt st.table (probeIndex v key st.size (a + d))) = false) →
      ∃ st', directInsertLoop v key st r a = some st' := by
  intro r
  induction r with
  | zero => rintro a ⟨d, hd, _⟩; omega
  | succ r ih =>
    rintro a ⟨d, hd, hfree⟩
    simp only [directInsertLoop]
    cases hslot : slotAt st.table (probeIndex v key st.size a) with
    | occ k =>
      cases d with
      | zero => rw [Nat.add_zero, hslot] at hfree; simp [isOcc] at hfree
      | succ d' =>
        refine ih (a + 1) ⟨d', by omega, ?_⟩
        have he : a + 1 + d' = a + (d' + 1) := by omega
        rw [he]; exact hfree
    | empty => exact ⟨_, rfl⟩
    | tomb => exact ⟨_, rfl⟩

/-- Invariant carried through the reinsert replay of `rehash`: fixed size and
table length, no tombstone slots, zero tombstone counter. -/
structure ReinsInv (s : Nat) (st : OAState) : Prop where
  size_eq : st.size = s
  len_eq : st.table.length = s
  no_tomb : ∀ i : Nat, slotAt st.table i ≠ .tomb
  tz : st.tombstones = 0

theorem oaDirectInsert_step (v : PVariant) {s : Nat} {st st' : OAState}
    (inv : ReinsInv s st) (k : String)
    (h : oaDirectInsert v st k = some st') :
    ReinsInv s st' ∧
    (occIdx st'.table).card = (occIdx st.table).card + 1 ∧
    st'.count = st.count + 1 ∧
    (∀ i k', slotAt st.table i = .occ k' → slotAt st'.table i = .occ k') ∧
    (∀ i k', slotAt st'.table i = .occ k' → slotAt st.table i = .occ k' ∨ k' = k) ∧
    (∃ a, a < s ∧ slotAt st'.table (probeIndex v k s a) = .occ k ∧
       ∀ j, j < a → isOcc (slotAt st'.table (probeIndex v k s j)) = true) := by
  obtain ⟨d, hd, hpre, hfree, hst⟩ := directInsertLoop_eq_some v k st st.size 0 st' h
  simp only [Nat.zero_add] at hpre hfree hst
  have hspos : 0 < st.size := by omega
  have hi0lt : probeIndex v k st.size d < st.size := probeIndex_lt v k st.size d hspos
  have hi0len : probeIndex v k st.size d < st.table.length := by
    rw [inv.len_eq, ← inv.size_eq]; exact hi0lt
  have hnt : slotAt st.table (probeIndex v k st.size d) ≠ .tomb :=
    inv.no_tomb (probeIndex v k st.size d)
  rw [if_neg hnt] at hst
  subst hst
  refine ⟨⟨inv.size_eq, by simp [inv.len_eq], ?_, inv.tz⟩, ?_, rfl, ?_, ?_, ?_⟩
  · intro i
    by_cases hii : i = probeIndex v k st.size d
    · subst hii; rw [slotAt_set_self _ _ _ hi0len]; simp
    · rw [slotAt_set_ne _ _ _ _ fun hh => hii hh.symm]; exact inv.no_tomb i
  · exact occIdx_card_set_occ _ _ _ hi0len hfree
  · intro i k' hik
    by_cases hii : i = probeIndex v k st.size d
    · subst hii; rw [hik] at hfree; simp [isOcc] at hfree
    · rw [slotAt_set_ne _ _ _ _ fun hh => hii hh.symm]; exact hik
  · intro i k' hik
    by_cases hii : i = probeIndex v k st.size d
    · subst hii
      rw [slotAt_set_self _ _ _ hi0len] at hik
      injection hik with hkk
      exact Or.inr hkk.symm
    · rw [slotAt_set_ne _ _ _ _ fun hh => hii hh.symm] at hik
      exact Or.inl hik
  · refine ⟨d, by have := inv.size_eq; omega, ?_, ?_⟩
    · rw [← inv.size_eq]
      exact slotAt_set_self _ _ _ hi0len
    · intro j hj
      rw [← inv.size_eq]
      by_cases hji : probeIndex v k st.size j = probeIndex v k st.size d
      · rw [hji, slotAt_set_self _ _ _ hi0len]; rfl
      · rw [slotAt_set_ne _ _ _ _ fun hh => hji hh.symm]
        exact hpre j hj

theorem reinsertAll_of_eq_some (v : PVariant) (s : Nat) :
    ∀ (es : List String) (st stf : OAState), reinsertAll v es st = some stf → ReinsInv s st →
      ReinsInv s stf ∧
      (∀ i k', slotAt st.table i = .occ k' → slotAt stf.table i = .occ k') ∧
      (∀ i k', slotAt stf.table i = .occ k' → slotAt st.table i = .occ k' ∨ k' ∈ es) ∧
      (∀ e ∈ es, ∃ a, a < s ∧ slotAt stf.table (probeIndex v e s a) = .occ e ∧
        ∀ j, j < a → isOcc (slotAt stf.table (probeIndex v e s j)) = true) ∧
      (occIdx stf.table).card = (occIdx st.table).card + es.length ∧
      stf.count = st.count + es.length := by
  intro es
  induction es with
  | nil =>
    intro st stf h inv
    simp only [reinsertAll, Option.some.injEq] at h
    subst h
    refine ⟨inv, fun i k' hk => hk, fun i k' hk => Or.inl hk, ?_, by simp, by simp⟩
    intro e he; simp at he
  | cons e es ih =>
    intro st stf h inv
    simp only [reinsertAll] at h
    cases hdi : oaDirectInsert v st e with
    | none => rw [hdi] at h; simp at h
    | some st1 =>
      rw [hdi] at h
      obtain ⟨inv1, hcard1, hcount1, hpres1, hrev1, a1, ha1, hocc1, hpre1⟩ :=
        oaDirectInsert_step v inv e hdi
      obtain ⟨invf, hpres, hrev, hwit, hcard, hcount⟩ := ih st1 stf h inv1
      refine ⟨invf, ?_, ?_, ?_, ?_, ?_⟩
      · intro i k' hk; exact hpres i k' (hpres1 i k' hk)
      · intro i k' hk
        rcases hrev i k' hk with hk1 | hmem
        · rcases hrev1 i k' hk1 with hk0 | rfl
          · exact Or.inl hk0
          · exact Or.inr (List.mem_cons_self _ _)
        · exact Or.inr (List.mem_cons_of_mem _ hmem)
      · intro e' he'
        rcases List.mem_cons.mp he' with rfl | hmem
        · refine ⟨a1, ha1, hpres _ _ hocc1, ?_⟩
          intro j hj
          have := hpre1 j hj
          obtain ⟨k'', hk''⟩ := (isOcc_iff _).mp this
          rw [hpres _ _ hk'']
          rfl
        · exact hwit e' hmem
      · rw [hcard, hcard1]
        simp [List.length_cons]
        omega
      · rw [hcount, hcount1]
        simp only [List.length_cons]
        push_cast
        ring
  
theorem reinsertAll_isSome (v : PVariant) (s cap : Nat) (hcaple : cap ≤ s)
    (hinj : ∀ key : String, ∀ a, a < cap → ∀ b, b < cap →
      probeIndex v key s a = probeIndex v key s b → a = b) :
    ∀ (es : List String) (st : OAState), ReinsInv s st →
      (occIdx st.table).card + es.length ≤ cap →
      ∃ stf, reinsertAll v es st = some stf := by
  intro es
  induction es with
  | nil => intro st inv hle; exact ⟨st, rfl⟩
  | cons e es ih =>
    intro st inv hle
    simp only [List.length_cons] at hle
    have hsz : st.size = s := inv.size_eq
    have hcardlt : (occIdx st.table).card < cap := by omega
    -- pigeonhole: some probe attempt below cap hits a free slot
    have hfree : ∃ d, d < st.size ∧ isOcc (slotAt st.table (probeIndex v e st.size d)) = false := by
      by_contra hall
      push_neg at hall
      have hallocc : ∀ d, d < cap → isOcc (slotAt st.table (probeIndex v e st.size d)) = true := by
        intro d hd
        have hds : d < st.size := by omega
        have := hall d hds
        simpa using this
      have hmaps : ∀ d ∈ Finset.range cap,
          probeIndex v e st.size d ∈ occIdx st.table := by
        intro d hd
        have hd' := Finset.mem_range.mp hd
        rw [mem_occIdx]
        have hspos : 0 < st.size := by omega
        constructor
        · rw [inv.len_eq, ← inv.size_eq]
          exact probeIndex_lt v e st.size d hspos
        · exact hallocc d hd'
      have hinj' : Set.InjOn (fun d => probeIndex v e st.size d)
          (Finset.range cap : Finset Nat) := by
        intro x hx y hy hxy
        simp only [Finset.coe_range, Set.mem_Iio] at hx hy
        rw [inv.size_eq] at hxy
        exact hinj e x hx y hy hxy
      have hcardle : cap ≤ (occIdx st.table).card := by
        have := Finset.card_le_card_of_injOn _ hmaps hinj'
        simpa using this
      omega
    obtain ⟨st1, hst1⟩ := directInsertLoop_isSome v e st st.size 0
      (by obtain ⟨d, hd, hf⟩ := hfree; exact ⟨d, hd, by simpa using hf⟩)
    obtain ⟨inv1, hcard1, _, _, _, _⟩ :=
      oaDirectInsert_step v inv e hst1
    obtain ⟨stf, hstf⟩ := ih st1 inv1 (by omega)
    refine ⟨stf, ?_⟩
    simp only [reinsertAll, oaDirectInsert] at hst1 ⊢
    rw [hst1]
    exact hstf

theorem slotAt_replicate (n i : Nat) : slotAt (List.replicate n Slot.empty) i = .empty := by
  induction n generalizing i with
  | zero => cases i <;> rfl
  | succ m ih =>
    cases i with
    | zero => rfl
    | succ j => simp only [List.replicate, slotAt, List.getD_cons_succ]; exact ih j

theorem occIdx_replicate (n : Nat) : occIdx (List.replicate n Slot.empty) = ∅ := by
  ext i
  simp [mem_occIdx, slotAt_replicate, isOcc]

theorem freshInv (n : Nat) :
    ReinsInv n { size := n, table := List.replicate n Slot.empty,
                 count := 0, tombstones := 0 : OAState } :=
  ⟨rfl, List.length_replicate n _, fun i => by rw [slotAt_replicate]; simp, rfl⟩

end DirectInsertLemmas

section SearchLemmas

theorem isOcc_ne_empty {s : Slot} (h : isOcc s = true) : s ≠ .empty := by
  cases s <;> simp_all [isOcc]

theorem oaSearchLoop_found (v : PVariant) (key : String) (st : OAState) :
    ∀ r a, (∃ d, d < r ∧ slotAt st.table (probeIndex v key st.size (a + d)) = .occ key ∧
        ∀ j, j < d → slotAt st.table (probeIndex v key st.size (a + j)) ≠ .empty) →
      oaSearchLoop v key st r a = .found := by
  intro r
  induction r with
  | zero => rintro a ⟨d, hd, _⟩; omega
  | succ r ih =>
    rintro a ⟨d, hd, hocc, hpre⟩
    simp only [oaSearchLoop]
    cases hslot : slotAt st.table (probeIndex v key st.size a) with
    | occ k =>
      by_cases hk : k = key
      · simp [hk]
      · show (if k = key then Status.found else oaSearchLoop v key st r (a + 1)) = Status.found
        rw [if_neg hk]
        cases d with
        | zero => rw [Nat.add_zero, hslot] at hocc; injection hocc with h0; exact absurd h0 hk
        | succ d' =>
          refine ih (a + 1) ⟨d', by omega, ?_, ?_⟩
          · have he : a + 1 + d' = a + (d' + 1) := by omega
            rw [he]; exact hocc
          · intro j hj
            have he : a + 1 + j = a + (j + 1) := by omega
            rw [he]; exact hpre (j + 1) (by omega)
    | empty =>
      cases d with
      | zero => rw [Nat.add_zero, hslot] at hocc; exact absurd hocc (by simp)
      | succ d' => exact absurd hslot (by simpa using hpre 0 (by omega))
    | tomb =>
      cases d with
      | zero => rw [Nat.add_zero, hslot] at hocc; exact absurd hocc (by simp)
      | succ d' =>
        refine ih (a + 1) ⟨d', by omega, ?_, ?_⟩
        · have he : a + 1 + d' = a + (d' + 1) := by omega
          rw [he]; exact hocc
        · intro j hj
          have he : a + 1 + j = a + (j + 1) := by omega
          rw [he]; exact hpre (j + 1) (by omega)

theorem oaSearchLoop_missing_at_empty (v : PVariant) (key : String) (st : OAState) :
    ∀ r a, (∃ d, d < r ∧ slotAt st.table (probeIndex v key st.size (a + d)) = .empty ∧
        ∀ j, j < d → slotAt st.table (probeIndex v key st.size (a + j)) ≠ .empty ∧
                     slotAt st.table (probeIndex v key st.size (a + j)) ≠ .occ key) →
      oaSearchLoop v key st r a = .missing := by
  intro r
  induction r with
  | zero => rintro a ⟨d, hd, _⟩; omega
  | succ r ih =>
    rintro a ⟨d, hd, hemp, hpre⟩
    simp only [oaSearchLoop]
    cases hslot : slotAt st.table (probeIndex v key st.size a) with
    | occ k =>
      have hk : ¬ k = key := by
        cases d with
        | zero => rw [Nat.add_zero, hslot] at hemp; exact absurd hemp (by simp)
        | succ d' =>
          intro hkk
          exact (hpre 0 (by omega)).2 (by rw [Nat.add_zero, hslot, hkk])
      show (if k = key then Status.found else oaSearchLoop v key st r (a + 1)) = Status.missing
      rw [if_neg hk]
      cases d with
      | zero => rw [Nat.add_zero, hslot] at hemp; exact absurd hemp (by simp)
      | succ d' =>
        refine ih (a + 1) ⟨d', by omega, ?_, ?_⟩
        · have he : a + 1 + d' = a + (d' + 1) := by omega
          rw [he]; exact hemp
        · intro j hj
          have he : a + 1 + j = a + (j + 1) := by omega
          rw [he]; exact hpre (j + 1) (by omega)
    | empty => rfl
    | tomb =>
      cases d with
      | zero => rw [Nat.add_zero, hslot] at hemp; exact absurd hemp (by simp)
      | succ d' =>
        refine ih (a + 1) ⟨d', by omega, ?_, ?_⟩
        · have he : a + 1 + d' = a + (d' + 1) := by omega
          rw [he]; exact hemp
        · intro j hj
          have he : a + 1 + j = a + (j + 1) := by omega
          rw [he]; exact hpre (j + 1) (by omega)

theorem oaSearchLoop_missing_exhaust (v : PVariant) (key : String) (st : OAState) :
    ∀ r a, (∀ d, d < r → slotAt st.table (probeIndex v key st.size (a + d)) ≠ .empty ∧
                         slotAt st.table (probeIndex v key st.size (a + d)) ≠ .occ key) →
      oaSearchLoop v key st r a = .missing := by
  intro r
  induction r with
  | zero => intro a _; rfl
  | succ r ih =>
    intro a hall
    simp only [oaSearchLoop]
    cases hslot : slotAt st.table (probeIndex v key st.size a) with
    | occ k =>
      have hk : ¬ k = key := by
        intro hkk
        exact (hall 0 (by omega)).2 (by rw [Nat.add_zero, hslot, hkk])
      show (if k = key then Status.found else oaSearchLoop v key st r (a + 1)) = Status.missing
      rw [if_neg hk]
      refine ih (a + 1) ?_
      intro d hd
      have he : a + 1 + d = a + (d + 1) := by omega
      rw [he]; exact hall (d + 1) (by omega)
    | empty => exact absurd hslot (by simpa using (hall 0 (by omega)).1)
    | tomb =>
      refine ih (a + 1) ?_
      intro d hd
      have he : a + 1 + d = a + (d + 1) := by omega
      rw [he]; exact hall (d + 1) (by omega)

end SearchLemmas

section ChainLemmas

theorem chInsertInternal_size (st : ChainState) (k : String) :
    (chInsertInternal st k).size = st.size := rfl

theorem chFold_size : ∀ (l : List String) (st : ChainState),
    (l.foldl chInsertInternal st).size = st.size := by
  intro l
  induction l with
  | nil => intro st; rfl
  | cons e l ih => intro st; rw [List.foldl_cons, ih, chInsertInternal_size]

theorem chInsertInternal_length (st : ChainState) (k : String) :
    (chInsertInternal st k).table.length = st.table.length := by
  simp [chInsertInternal]

theorem chFold_length : ∀ (l : List String) (st : ChainState),
    (l.foldl chInsertInternal st).table.length = st.table.length := by
  intro l
  induction l with
  | nil => intro st; rfl
  | cons e l ih => intro st; rw [List.foldl_cons, ih, chInsertInternal_length]

theorem chInsertInternal_mem (st : ChainState) (e k : String)
    (hlen : st.table.length = st.size) (hpos : 0 < st.size)
    (h : k ∈ st.table.getD (primaryIndex k st.size) [] ∨ k = e) :
    k ∈ (chInsertInternal st e).table.getD (primaryIndex k (chInsertInternal st e).size) [] := by
  rw [chInsertInternal_size]
  have hidxe : primaryIndex e st.size < st.table.length := by
    rw [hlen]; exact Nat.mod_lt _ hpos
  simp only [chInsertInternal]
  by_cases hsame : primaryIndex k st.size = primaryIndex e st.size
  · rw [hsame, getD_set_self _ _ _ _ hidxe]
    rcases h with hmem | rfl
    · exact List.mem_append_left _ (by rwa [hsame] at hmem)
    · exact List.mem_append_right _ (List.mem_singleton_self _)
  · rw [getD_set_ne _ _ _ _ _ fun hh => hsame hh.symm]
    rcases h with hmem | rfl
    · exact hmem
    · exact absurd rfl hsame

theorem chFold_mem : ∀ (l : List String) (st : ChainState) (k : String),
    st.table.length = st.size → 0 < st.size →
    (k ∈ st.table.getD (primaryIndex k st.size) [] ∨ k ∈ l) →
    k ∈ (l.foldl chInsertInternal st).table.getD
        (primaryIndex k (l.foldl chInsertInternal st).size) [] := by
  intro l
  induction l with
  | nil =>
    intro st k hlen hpos h
    rcases h with hmem | hmem
    · exact hmem
    · simp at hmem
  | cons e l ih =>
    intro st k hlen hpos h
    rw [List.foldl_cons]
    have hlen1 : (chInsertInternal st e).table.length = (chInsertInternal st e).size := by
      rw [chInsertInternal_length, chInsertInternal_size]; exact hlen
    have hpos1 : 0 < (chInsertInternal st e).size := by rw [chInsertInternal_size]; exact hpos
    refine ih (chInsertInternal st e) k hlen1 hpos1 ?_
    rcases h with hmem | hmem
    · left
      have := chInsertInternal_mem st e k hlen hpos (Or.inl hmem)
      simpa [chInsertInternal_size] using this
    · rcases List.mem_cons.mp hmem with heq | hmem'
      · left
        have := chInsertInternal_mem st e k hlen hpos (Or.inr heq)
        simpa [chInsertInternal_size] using this
      · exact Or.inr hmem'

theorem chRehash_size (st : ChainState) (newSize : Nat) :
    (chRehash st newSize).size = newSize := by
  simp [chRehash, chFold_size]

theorem chRehash_mem (st : ChainState) (newSize : Nat) (hpos : 0 < newSize)
    (k : String) (hk : k ∈ st.table.flatten) :
    k ∈ (chRehash st newSize).table.getD (primaryIndex k newSize) [] := by
  have := chFold_mem st.table.flatten
    { size := newSize, table := List.replicate newSize [], count := 0 } k
    (by simp) hpos (Or.inr hk)
  rwa [show ((st.table.flatten).foldl chInsertInternal
      { size := newSize, table := List.replicate newSize [], count := 0 : ChainState }).size
      = newSize from chFold_size _ _] at this

end ChainLemmas

def c1OAState : OAState :=
  { size := 3, table := [.occ "1", .tomb, .empty], count := 1, tombstones := 1 }

def c1OAState' : OAState :=
  { size := 5, table := [.empty, .empty, .empty, .empty, .occ "1"], count := 1, tombstones := 0 }

def c1ChState : ChainState := { size := 3, table := [[], ["1"], []], count := 1 }

/-- C1: for every open-addressing table (all three probe variants) and every
rehash that completes, every key that was `Occupied` before the rehash is
findable by `search` afterwards (status `found`), and the tombstone count
after the rehash is 0; likewise every chaining rehash keeps every previously
stored key findable. (Keys stored by the engine are always normalised, which
the hypothesis `normaliseKey k = k` reflects.) -/
theorem rehash_preserves_live_keys :
    (∀ (v : PVariant) (st : OAState) (newSize : Nat) (st' : OAState),
        oaRehash v st newSize = some st' →
        st'.tombstones = 0 ∧
        ∀ k, normaliseKey k = k → Slot.occ k ∈ st.table →
          oaSearch v st' k = .found) ∧
    (∀ (st : ChainState) (newSize : Nat), 0 < newSize →
        ∀ k, normaliseKey k = k → k ∈ st.table.flatten →
          chSearch (chRehash st newSize) k = .found) := by
  constructor
  · intro v st newSize st' h
    obtain ⟨invf, _, _, hwit, _, _⟩ :=
      reinsertAll_of_eq_some v newSize (collectEntries st.table) _ st' h (freshInv newSize)
    refine ⟨invf.tz, ?_⟩
    intro k hk hmem
    have hke : k ∈ collectEntries st.table := (mem_collectEntries _ _).mpr hmem
    obtain ⟨a, ha, hocc, hpre⟩ := hwit k hke
    unfold oaSearch
    rw [hk]
    apply oaSearchLoop_found
    refine ⟨a, ?_, ?_, ?_⟩
    · rw [invf.size_eq]; exact ha
    · rw [Nat.zero_add, invf.size_eq]; exact hocc
    · intro j hj
      rw [Nat.zero_add, invf.size_eq]
      exact isOcc_ne_empty (hpre j hj)
  · intro st newSize hpos k hk hmem
    unfold chSearch
    rw [hk, chRehash_size, if_pos (chRehash_mem st newSize hpos k hmem)]

/-- Witness for C1 at concrete inputs: rehashing a linear table holding "1"
(plus a tombstone) to size 5 clears tombstones and keeps "1" findable, and a
chaining rehash from size 3 to size 5 keeps "1" findable. -/
theorem rehash_preserves_live_keys_witness :
    c1OAState'.tombstones = 0 ∧ oaSearch .linear c1OAState' "1" = .found ∧
    chSearch (chRehash c1ChState 5) "1" = .found := by
  have h : oaRehash .linear c1OAState 5 = some c1OAState' := by decide
  have hoa := (rehash_preserves_live_keys.1 .linear c1OAState 5 c1OAState' h)
  refine ⟨hoa.1, hoa.2 "1" (by decide) (by decide), ?_⟩
  exact rehash_preserves_live_keys.2 c1ChState 5 (by decide) "1" (by decide) (by decide)

section ProbeInjectivity

theorem linear_probe_inj (key : String) (s : Nat) :
    ∀ a, a < s → ∀ b, b < s →
      probeIndex .linear key s a = probeIndex .linear key s b → a = b := by
  intro a ha b hb h
  simp only [probeIndex] at h
  have h' : a ≡ b [MOD s] := Nat.ModEq.add_left_cancel' _ h
  have := h'
  unfold Nat.ModEq at this
  rwa [Nat.mod_eq_of_lt ha, Nat.mod_eq_of_lt hb] at this

theorem secondaryStep_eq (key : String) (s : Nat) (hs : 2 ≤ s) :
    secondaryStep key s = 1 + hashCode key % (s - 1) := by
  have h1 : ¬ s ≤ 1 := by omega
  have h2 : ¬ s - 1 = 0 := by omega
  have h3 : ¬ 1 + hashCode key % (s - 1) = 0 := by omega
  simp only [secondaryStep]
  simp [h1, h2, h3]

theorem secondaryStep_bound (key : String) (s : Nat) (hs : 2 ≤ s) :
    1 ≤ secondaryStep key s ∧ secondaryStep key s ≤ s - 1 := by
  rw [secondaryStep_eq key s hs]
  have : hashCode key % (s - 1) < s - 1 := Nat.mod_lt _ (by omega)
  omega

theorem doubleH_probe_inj (key : String) (s : Nat) (hp : Nat.Prime s) :
    ∀ a, a < s → ∀ b, b < s →
      probeIndex .doubleH key s a = probeIndex .doubleH key s b → a = b := by
  intro a ha b hb h
  have hs2 : 2 ≤ s := hp.two_le
  obtain ⟨hstep1, hstep2⟩ := secondaryStep_bound key s hs2
  simp only [probeIndex] at h
  have h' : a * secondaryStep key s ≡ b * secondaryStep key s [MOD s] :=
    Nat.ModEq.add_left_cancel' _ h
  have hndvd : ¬ s ∣ secondaryStep key s := by
    intro hdvd
    have := Nat.le_of_dvd (by omega) hdvd
    omega
  have hco : Nat.gcd s (secondaryStep key s) = 1 :=
    hp.coprime_iff_not_dvd.mpr hndvd
  have h'' : a ≡ b [MOD s] := Nat.ModEq.cancel_right_of_coprime hco h'
  unfold Nat.ModEq at h''
  rwa [Nat.mod_eq_of_lt ha, Nat.mod_eq_of_lt hb] at h''

theorem quadratic_probe_inj (key : String) (s : Nat) (hp : Nat.Prime s) :
    ∀ a, a < (s + 1) / 2 → ∀ b, b < (s + 1) / 2 →
      probeIndex .quadratic key s a = probeIndex .quadratic key s b → a = b := by
  intro a ha b hb h
  have hs2 : 2 ≤ s := hp.two_le
  simp only [probeIndex] at h
  have h' : a * a ≡ b * b [MOD s] := Nat.ModEq.add_left_cancel' _ h
  have hdvd : (s : ℤ) ∣ ((b * b : ℕ) : ℤ) - ((a * a : ℕ) : ℤ) := (Nat.modEq_iff_dvd).mp h'
  have hfact : ((b * b : ℕ) : ℤ) - ((a * a : ℕ) : ℤ) = ((b : ℤ) - a) * ((b : ℤ) + a) := by
    push_cast; ring
  rw [hfact] at hdvd
  have hprime : Prime (s : ℤ) := Nat.prime_iff_prime_int.mp hp
  rcases hprime.dvd_mul.mp hdvd with hd | hd
  · have habs : |(b : ℤ) - a| < s := by
      rw [abs_lt]
      constructor <;> omega
    have := Int.eq_zero_of_abs_lt_dvd hd habs
    omega
  · have habs : |(b : ℤ) + a| < s := by
      rw [abs_lt]
      constructor <;> omega
    have := Int.eq_zero_of_abs_lt_dvd hd habs
    omega

end ProbeInjectivity

/-- The number of leading probe attempts guaranteed to visit pairwise distinct
slots (at a prime size): the full cycle for linear and double hashing, only
`(size+1)/2` attempts for quadratic probing. -/
def probeCap : PVariant → Nat → Nat
  | .quadratic, s => (s + 1) / 2
  | _, s => s

def c2Keys : List String := ["1402", "2168", "1026", "480", "2444", "1811"]

def c2State : OAState :=
  { size := 17,
    table := [.empty, .empty, .occ "2444", .empty, .empty, .empty, .tomb, .empty, .empty,
              .occ "1402", .occ "2168", .occ "480", .occ "1026", .empty, .empty, .empty, .empty],
    count := 5, tombstones := 1 }

/-- C2 counterexample: a quadratic-probing rehash to size 7 with only 5 live
keys (7 ≥ 5) still hits the fatal `Rehash failed to allocate slot` error,
because the quadratic probe sequence of "1026" at size 7 visits only slots
{1, 2, 3, 5}, all occupied by then. The last conjunct shows the same failure
arising from real operations: inserting the six keys into a fresh size-17
quadratic table and removing "1811" triggers the shrink rehash to
`previousPrime(max(3, floor(17/1.6))) = 7`, which throws. -/
theorem quadratic_rehash_allocation_failure :
    (collectEntries c2State.table).length = 5 ∧ 5 ≤ 7 ∧
    oaRehash .quadratic c2State 7 = none ∧
    ((oaInsertMany .quadratic (oaFresh 17) c2Keys).bind
      fun st => oaRemove .quadratic st "1811") = none := by decide

/-- C2 amended: a rehash's reinsertion replay cannot fail when the (prime)
target size accommodates the collected keys within the probe sequence's
guaranteed-distinct range: all collected keys for linear and double hashing
(target ≥ number of keys suffices), but only `(target+1)/2` keys for
quadratic probing — target ≥ keys alone does not suffice there, as the
counterexample shows. -/
theorem rehash_reinsertion_succeeds (v : PVariant) (st : OAState) (newSize : Nat)
    (hp : Nat.Prime newSize)
    (hle : (collectEntries st.table).length ≤ probeCap v newSize) :
    ∃ st', oaRehash v st newSize = some st' := by
  have hcaple : probeCap v newSize ≤ newSize := by
    cases v <;> simp only [probeCap] <;> omega
  have hinj : ∀ key : String, ∀ a, a < probeCap v newSize → ∀ b, b < probeCap v newSize →
      probeIndex v key newSize a = probeIndex v key newSize b → a = b := by
    cases v with
    | linear => intro key a ha b hb; exact linear_probe_inj key newSize a ha b hb
    | quadratic => intro key a ha b hb; exact quadratic_probe_inj key newSize hp a ha b hb
    | doubleH => intro key a ha b hb; exact doubleH_probe_inj key newSize hp a ha b hb
  exact reinsertAll_isSome v newSize (probeCap v newSize) hcaple hinj
    (collectEntries st.table) _ (freshInv newSize)
    (by rw [occIdx_replicate]; simpa using hle)

/-- Witness for the amended C2: the same five keys rehash fine under quadratic
probing once the target is a prime at least twice as large (11, with
(11+1)/2 = 6 ≥ 5). -/
theorem rehash_reinsertion_succeeds_witness :
    ∃ st', oaRehash .quadratic c2State 11 = some st' :=
  rehash_reinsertion_succeeds .quadratic c2State 11 (by norm_num) (by decide)

section SaturatedInsert

theorem slotAt_ge_length (t : List Slot) (i : Nat) (h : t.length ≤ i) :
    slotAt t i = .empty := by
  induction t generalizing i with
  | nil => cases i <;> rfl
  | cons s t ih =>
    cases i with
    | zero => simp at h
    | succ j => simp only [slotAt, List.getD_cons_succ]; exact ih j (by simpa using h)

theorem oaInsertLoop_exhausted_all_occ (v : PVariant) (key : String) (st : OAState) :
    ∀ r a ft,
      (∀ d, d < r → ∃ k', slotAt st.table (probeIndex v key st.size (a + d)) = .occ k' ∧
        k' ≠ key) →
      oaInsertLoop v key st r a ft = .exhausted ft := by
  intro r
  induction r with
  | zero => intro a ft _; rfl
  | succ r ih =>
    intro a ft hall
    simp only [oaInsertLoop]
    obtain ⟨k', hk', hne⟩ := hall 0 (by omega)
    rw [Nat.add_zero] at hk'
    cases hslot : slotAt st.table (probeIndex v key st.size a) with
    | occ k =>
      rw [hslot] at hk'
      injection hk' with hkk
      subst hkk
      show (if k = key then InsLoopOut.dup st else oaInsertLoop v key st r (a + 1) ft)
        = InsLoopOut.exhausted ft
      rw [if_neg hne]
      refine ih (a + 1) ft ?_
      intro d hd
      have he : a + 1 + d = a + (d + 1) := by omega
      rw [he]; exact hall (d + 1) (by omega)
    | empty => rw [hslot] at hk'; exact absurd hk' (by simp)
    | tomb => rw [hslot] at hk'; exact absurd hk' (by simp)

theorem ensure_noop_at_full199 (v : PVariant) (st : OAState)
    (hsz : st.size = 199) (hc : st.count = 199) :
    oaEnsureCapacity v st = some st := by
  unfold oaEnsureCapacity
  rw [hsz, hc]
  rw [if_pos (by norm_num)]
  rw [if_neg (by decide)]

theorem linear_insert_full_none (rawKey : String) (hk : normaliseKey rawKey = rawKey) :
    ∀ (fuel : Nat) (st : OAState), st.size = 199 → st.table.length = 199 → st.count = 199 →
      (∀ i, i < 199 → isOcc (slotAt st.table i) = true) →
      (∀ i : Nat, slotAt st.table i ≠ .occ rawKey) →
      oaInsert .linear fuel st rawKey = none := by
  intro fuel
  induction fuel with
  | zero => intro st _ _ _ _ _; rfl
  | succ fuel ih =>
    intro st hsz hlen hc hfull hfresh
    have hens : oaEnsureCapacity .linear st = some st := ensure_noop_at_full199 _ st hsz hc
    have hloop : oaInsertLoop .linear rawKey st st.size 0 none = .exhausted none := by
      apply oaInsertLoop_exhausted_all_occ
      intro d hd
      have hplt : probeIndex .linear rawKey st.size (0 + d) < 199 := by
        rw [← hsz]
        exact probeIndex_lt _ _ _ _ (by omega)
      have hocc := hfull _ hplt
      obtain ⟨k', hk'⟩ := (isOcc_iff _).mp hocc
      refine ⟨k', hk', ?_⟩
      intro hcontra
      exact hfresh _ (by rw [hk', hcontra])
    have hloop199 : oaInsertLoop .linear rawKey st 199 0 none = .exhausted none := by
      rw [← hsz]; exact hloop
    have htarget : nextPrime ((8 * 199 + 4) / 5) = 199 := by decide
    have hallmem : ∀ s ∈ st.table, isOcc s = true := by
      intro s hs
      obtain ⟨i, hi, hgd⟩ := (mem_iff_getD st.table s .empty).mp hs
      rw [← hgd]
      exact hfull i (by omega)
    have heslen : (collectEntries st.table).length = 199 := by
      rw [collectEntries_length_allOcc st.table hallmem, hlen]
    have hinj : ∀ key : String, ∀ a, a < 199 → ∀ b, b < 199 →
        probeIndex .linear key 199 a = probeIndex .linear key 199 b → a = b :=
      fun key a ha b hb => linear_probe_inj key 199 a ha b hb
    obtain ⟨st1, hst1⟩ := reinsertAll_isSome .linear 199 199 (Nat.le_refl 199) hinj
      (collectEntries st.table) _ (freshInv 199)
      (by rw [occIdx_replicate]; simp [heslen])
    have hreh : oaRehash .linear st 199 = some st1 := hst1
    obtain ⟨inv1, _hpres, hrev, _hwit, hcard, hcount⟩ :=
      reinsertAll_of_eq_some .linear 199 (collectEntries st.table) _ st1 hst1 (freshInv 199)
    have hcard1 : (occIdx st1.table).card = 199 := by
      rw [hcard, occIdx_replicate, heslen]; simp
    have hfull1 : ∀ i, i < 199 → isOcc (slotAt st1.table i) = true := by
      intro i hi
      exact allOcc_of_occIdx_card st1.table (by rw [hcard1, inv1.len_eq]) i
        (by rw [inv1.len_eq]; exact hi)
    have hfresh1 : ∀ i : Nat, slotAt st1.table i ≠ .occ rawKey := by
      intro i hcontra
      rcases hrev i rawKey hcontra with h0 | hmem
      · rw [slotAt_replicate] at h0; exact absurd h0 (by simp)
      · have hocc := (mem_collectEntries st.table rawKey).mp hmem
        obtain ⟨i0, hi0, hgd⟩ := (mem_iff_getD st.table _ .empty).mp hocc
        exact hfresh i0 hgd
    have hc1 : st1.count = 199 := by
      rw [hcount, heslen]; norm_num
    have hstep : oaInsert .linear (fuel + 1) st rawKey = oaInsert .linear fuel st1 rawKey := by
      simp only [oaInsert, hk, hens, hloop, hloop199, hsz, htarget, hreh]
    rw [hstep]
    exact ih st1 inv1.size_eq inv1.len_eq hc1 hfull1 hfresh1

/-- A canonical decimal key string. -/
def natKey (i : Nat) : String := String.mk (natDigits i)

def c3Table : List Slot := (List.range 199).map fun i => Slot.occ (natKey i)

/-- The fully saturated linear-probing table at the maximum size 199, holding
the keys "0".."198". It is reachable: setting the table size to 199 and
inserting 199 distinct keys fills every slot, since at size 199 both growth
thresholds compute `nextPrime(ceil(199*1.6)) = 199 = size` and never rehash. -/
def c3State : OAState := { size := 199, table := c3Table, count := 199, tombstones := 0 }

set_option maxRecDepth 40000 in
/-- C3 (refuting the claim): at the maximum table size 199 with a fully
occupied table, inserting a fresh key never returns at any recursion depth:
the saturated branch's growth rehash computes `nextPrime(319) = 199`, rebuilds
an identical fully-occupied table, and retries the same insert forever
(in JavaScript, unbounded recursion until stack overflow). -/
theorem insert_unbounded_retry_at_max_size :
    ∀ fuel : Nat, oaInsert .linear fuel c3State "x" = none := by
  intro fuel
  apply linear_insert_full_none "x" (by decide) fuel c3State rfl
  · simp [c3State, c3Table]
  · rfl
  · intro i hi
    revert i
    decide
  · intro i
    by_cases hi : i < 199
    · revert i
      have : ∀ i, i < 199 → slotAt c3State.table i ≠ .occ "x" := by decide
      intro i hi _
      exact this i hi ‹_›
    · rw [show c3State.table = c3Table from rfl, slotAt_ge_length c3Table i
        (by simp [c3Table]; omega)]
      simp

end SaturatedInsert

section InsertLoopLemmas

/-- The index of the first tombstone among the probe slots of attempts
`a, a+1, ..., a+d-1`, if any — the `firstTombstone` the insert loop records. -/
def firstTombIn (v : PVariant) (key : String) (st : OAState) : Nat → Nat → Option Nat
  | _, 0 => none
  | a, d + 1 =>
    if slotAt st.table (probeIndex v key st.size a) = .tomb
    then some (probeIndex v key st.size a)
    else firstTombIn v key st (a + 1) d

theorem oaInsertLoop_dup (v : PVariant) (key : String) (st : OAState) :
    ∀ r a (ft : Option Nat),
      (∃ d, d < r ∧ slotAt st.table (probeIndex v key st.size (a + d)) = .occ key ∧
        ∀ j, j < d → slotAt st.table (probeIndex v key st.size (a + j)) ≠ .empty ∧
                     slotAt st.table (probeIndex v key st.size (a + j)) ≠ .occ key) →
      oaInsertLoop v key st r a ft = .dup st := by
  intro r
  induction r with
  | zero => rintro a ft ⟨d, hd, _⟩; omega
  | succ r ih =>
    rintro a ft ⟨d, hd, hocc, hpre⟩
    simp only [oaInsertLoop]
    cases hslot : slotAt st.table (probeIndex v key st.size a) with
    | occ k =>
      by_cases hk : k = key
      · simp [hk]
      · show (if k = key then InsLoopOut.dup st else oaInsertLoop v key st r (a + 1) ft)
          = InsLoopOut.dup st
        rw [if_neg hk]
        cases d with
        | zero =>
          rw [Nat.add_zero, hslot] at hocc
          injection hocc with h0
          exact absurd h0 hk
        | succ d' =>
          refine ih (a + 1) ft ⟨d', by omega, ?_, ?_⟩
          · have he : a + 1 + d' = a + (d' + 1) := by omega
            rw [he]; exact hocc
          · intro j hj
            have he : a + 1 + j = a + (j + 1) := by omega
            rw [he]; exact hpre (j + 1) (by omega)
    | empty =>
      cases d with
      | zero => rw [Nat.add_zero, hslot] at hocc; exact absurd hocc (by simp)
      | succ d' => exact absurd hslot (by simpa using (hpre 0 (by omega)).1)
    | tomb =>
      cases d with
      | zero => rw [Nat.add_zero, hslot] at hocc; exact absurd hocc (by simp)
      | succ d' =>
        refine ih (a + 1) _ ⟨d', by omega, ?_, ?_⟩
        · have he : a + 1 + d' = a + (d' + 1) := by omega
          rw [he]; exact hocc
        · intro j hj
          have he : a + 1 + j = a + (j + 1) := by omega
          rw [he]; exact hpre (j + 1) (by omega)

theorem orElse_none_thunk (ft : Option Nat) : (ft.orElse fun _ => (none : Option Nat)) = ft := by
  cases ft <;> rfl

theorem oaInsertLoop_placed (v : PVariant) (key : String) (st : OAState) :
    ∀ d r a (ft : Option Nat), d < r →
      slotAt st.table (probeIndex v key st.size (a + d)) = .empty →
      (∀ j, j < d → slotAt st.table (probeIndex v key st.size (a + j)) ≠ .empty ∧
                    slotAt st.table (probeIndex v key st.size (a + j)) ≠ .occ key) →
      oaInsertLoop v key st r a ft = .placed { st with
        table := st.table.set ((ft.orElse fun _ => firstTombIn v key st a d).getD
          (probeIndex v key st.size (a + d))) (.occ key),
        count := st.count + 1,
        tombstones :=
          if slotAt st.table ((ft.orElse fun _ => firstTombIn v key st a d).getD
            (probeIndex v key st.size (a + d))) = .tomb
          then st.tombstones - 1 else st.tombstones } := by
  intro d
  induction d with
  | zero =>
    intro r a ft hr hemp hpre
    cases r with
    | zero => omega
    | succ r =>
      have h0 : firstTombIn v key st a 0 = none := rfl
      rw [Nat.add_zero] at hemp ⊢
      rw [h0, orElse_none_thunk]
      simp only [oaInsertLoop]
      rw [hemp]
      rfl
  | succ d ih =>
    intro r a ft hr hemp hpre
    cases r with
    | zero => omega
    | succ r =>
      have hpre0 := hpre 0 (by omega)
      rw [Nat.add_zero] at hpre0
      simp only [oaInsertLoop]
      cases hslot : slotAt st.table (probeIndex v key st.size a) with
      | occ k =>
        have hk : ¬ k = key := fun hkk => hpre0.2 (by rw [hslot, hkk])
        show (if k = key then InsLoopOut.dup st else oaInsertLoop v key st r (a + 1) ft) = _
        rw [if_neg hk]
        have hnt : slotAt st.table (probeIndex v key st.size a) ≠ .tomb := by
          rw [hslot]; simp
        have hft : firstTombIn v key st a (d + 1) = firstTombIn v key st (a + 1) d := by
          rw [firstTombIn, if_neg hnt]
        have he : a + (d + 1) = a + 1 + d := by omega
        simp only [hft, he]
        refine ih r (a + 1) ft (by omega) (by rw [← he]; exact hemp) ?_
        intro j hj
        have he2 : a + 1 + j = a + (j + 1) := by omega
        rw [he2]; exact hpre (j + 1) (by omega)
      | empty => exact absurd hslot hpre0.1
      | tomb =>
        have hft : firstTombIn v key st a (d + 1) = some (probeIndex v key st.size a) := by
          rw [firstTombIn, if_pos hslot]
        have he : a + (d + 1) = a + 1 + d := by omega
        have horelse : ∀ X : Unit → Option Nat,
            ((if ft = none then some (probeIndex v key st.size a) else ft).orElse X)
            = ft.orElse fun _ => firstTombIn v key st a (d + 1) := by
          intro X
          cases ft with
          | none => rw [if_pos rfl, hft]; rfl
          | some x => rw [if_neg (by simp)]; rfl
        simp only [he] at hemp ⊢
        rw [show (ft.orElse fun _ => firstTombIn v key st a (d + 1))
          = ((if ft = none then some (probeIndex v key st.size a) else ft).orElse
            fun _ => firstTombIn v key st (a + 1) d) from (horelse _).symm ▸ rfl]
        exact ih r (a + 1) _ (by omega) hemp fun j hj => by
          have he2 : a + 1 + j = a + (j + 1) := by omega
          rw [he2]; exact hpre (j + 1) (by omega)

end InsertLoopLemmas

section InsertClaim

theorem oaEnsureCapacity_noop (v : PVariant) (st : OAState)
    (h1 : ¬ 25 * st.count > 17 * (st.size : Int))
    (h2 : ¬ (20 * (st.count + st.tombstones) > 17 * (st.size : Int) ∧
             20 * st.tombstones > 3 * (st.size : Int))) :
    oaEnsureCapacity v st = some st := by
  unfold oaEnsureCapacity
  rw [if_neg h1, if_neg h2]

theorem oaMaintainAfterInsert_noop (v : PVariant) (st : OAState)
    (h1 : ¬ 25 * st.count > 18 * (st.size : Int))
    (h2 : ¬ 50 * st.tombstones > 9 * (st.size : Int)) :
    oaMaintainAfterInsert v st = some st := by
  unfold oaMaintainAfterInsert
  rw [if_neg fun h => h1 h.1, if_neg fun h => h2 h.2]

theorem firstTombIn_eq_none (v : PVariant) (key : String) (st : OAState) :
    ∀ d a, (∀ j, j < d → slotAt st.table (probeIndex v key st.size (a + j)) ≠ .tomb) →
      firstTombIn v key st a d = none := by
  intro d
  induction d with
  | zero => intro a _; rfl
  | succ d ih =>
    intro a hnt
    rw [firstTombIn, if_neg (by simpa using hnt 0 (by omega))]
    refine ih (a + 1) ?_
    intro j hj
    have he : a + 1 + j = a + (j + 1) := by omega
    rw [he]; exact hnt (j + 1) (by omega)

theorem firstTombIn_eq_some (v : PVariant) (key : String) (st : OAState) :
    ∀ d a j0, j0 < d →
      slotAt st.table (probeIndex v key st.size (a + j0)) = .tomb →
      (∀ j, j < j0 → slotAt st.table (probeIndex v key st.size (a + j)) ≠ .tomb) →
      firstTombIn v key st a d = some (probeIndex v key st.size (a + j0)) := by
  intro d
  induction d with
  | zero => intro a j0 h; omega
  | succ d ih =>
    intro a j0 hj0 htomb hpre
    cases j0 with
    | zero =>
      rw [Nat.add_zero] at htomb
      rw [firstTombIn, if_pos htomb, Nat.add_zero]
    | succ j0' =>
      have hnt0 : slotAt st.table (probeIndex v key st.size a) ≠ .tomb := by
        simpa using hpre 0 (by omega)
      rw [firstTombIn, if_neg hnt0]
      have he : a + (j0' + 1) = a + 1 + j0' := by omega
      rw [he] at htomb ⊢
      refine ih (a + 1) j0' (by omega) htomb ?_
      intro j hj
      have he2 : a + 1 + j = a + (j + 1) := by omega
      rw [he2]; exact hpre (j + 1) (by omega)

def c4Run : Option OAState := oaInsertMany .linear (oaFresh 7) ["1", "2", "3", "4", "5"]

set_option maxRecDepth 4000 in
/-- C4 counterexample: inserting the duplicate key "1" into a reachable linear
table of size 7 holding 5 keys (load 5/7 > 0.68) first triggers the pre-insert
growth rehash to size 13, so the result has status `duplicate` but the table
has been mutated (its size changed from 7 to 13), contradicting the claim's
"no mutation of table, count, or tombstones" as a statement about the whole
insert call. -/
theorem insert_duplicate_after_capacity_rehash_mutates :
    (c4Run.bind fun st => (oaInsert .linear 5 st "1").map OAResult.status)
      = some .duplicate ∧
    c4Run.map OAState.size = some 7 ∧
    ((c4Run.bind fun st => oaInsert .linear 5 st "1").map fun r => r.state.size)
      = some 13 ∧
    ((c4Run.bind fun st => oaInsert .linear 5 st "1").map fun r => r.state.table)
      ≠ c4Run.map OAState.table := by decide

/-- C4 amended: provided the pre-insert capacity check does not fire
(`load ≤ 0.68` and no tombstone-compaction trigger) and, for the insertion
case, the post-insert maintenance does not fire either, open-addressing insert
behaves exactly as claimed: a visited slot holding the key yields status
`duplicate` with no mutation at all; otherwise, on reaching the first `Empty`
slot, the key is placed at the first `Tombstone` slot seen earlier in the
probe if one was seen (and `tombstones` is decremented), else at that empty
slot (`tombstones` unchanged), and `count` is incremented. -/
theorem insert_probe_placement (v : PVariant) (st : OAState) (rawKey : String) (fuel : Nat)
    (hk : normaliseKey rawKey = rawKey)
    (hcap1 : ¬ 25 * st.count > 17 * (st.size : Int))
    (hcap2 : ¬ (20 * (st.count + st.tombstones) > 17 * (st.size : Int) ∧
                20 * st.tombstones > 3 * (st.size : Int))) :
    ((∃ d, d < st.size ∧ slotAt st.table (probeIndex v rawKey st.size d) = .occ rawKey ∧
        ∀ j, j < d → slotAt st.table (probeIndex v rawKey st.size j) ≠ .empty ∧
                     slotAt st.table (probeIndex v rawKey st.size j) ≠ .occ rawKey) →
      oaInsert v (fuel + 1) st rawKey = some { state := st, status := .duplicate }) ∧
    (∀ d, d < st.size → slotAt st.table (probeIndex v rawKey st.size d) = .empty →
      (∀ j, j < d → slotAt st.table (probeIndex v rawKey st.size j) ≠ .empty ∧
                    slotAt st.table (probeIndex v rawKey st.size j) ≠ .occ rawKey) →
      ¬ 25 * (st.count + 1) > 18 * (st.size : Int) →
      ¬ 50 * st.tombstones > 9 * (st.size : Int) →
      oaInsert v (fuel + 1) st rawKey = some {
        state := { st with
          table := st.table.set ((firstTombIn v rawKey st 0 d).getD
            (probeIndex v rawKey st.size d)) (.occ rawKey),
          count := st.count + 1,
          tombstones :=
            if slotAt st.table ((firstTombIn v rawKey st 0 d).getD
              (probeIndex v rawKey st.size d)) = .tomb
            then st.tombstones - 1 else st.tombstones },
        status := .inserted } ∧
      ((∀ j, j < d → slotAt st.table (probeIndex v rawKey st.size j) ≠ .tomb) →
        (firstTombIn v rawKey st 0 d).getD (probeIndex v rawKey st.size d)
          = probeIndex v rawKey st.size d) ∧
      (∀ j0, j0 < d → slotAt st.table (probeIndex v rawKey st.size j0) = .tomb →
        (∀ j, j < j0 → slotAt st.table (probeIndex v rawKey st.size j) ≠ .tomb) →
        (firstTombIn v rawKey st 0 d).getD (probeIndex v rawKey st.size d)
          = probeIndex v rawKey st.size j0 ∧
        slotAt st.table ((firstTombIn v rawKey st 0 d).getD
          (probeIndex v rawKey st.size d)) = .tomb)) := by
  have hens : oaEnsureCapacity v st = some st := oaEnsureCapacity_noop v st hcap1 hcap2
  constructor
  · rintro ⟨d, hd, hocc, hpre⟩
    have hloop : oaInsertLoop v rawKey st st.size 0 none = .dup st := by
      refine oaInsertLoop_dup v rawKey st st.size 0 none ⟨d, hd, ?_, ?_⟩
      · rw [Nat.zero_add]; exact hocc
      · intro j hj; rw [Nat.zero_add]; exact hpre j hj
    simp only [oaInsert, hk, hens, hloop]
  · intro d hd hemp hpre hm1 hm2
    have hloop : oaInsertLoop v rawKey st st.size 0 none = .placed { st with
        table := st.table.set ((firstTombIn v rawKey st 0 d).getD
          (probeIndex v rawKey st.size d)) (.occ rawKey),
        count := st.count + 1,
        tombstones :=
          if slotAt st.table ((firstTombIn v rawKey st 0 d).getD
            (probeIndex v rawKey st.size d)) = .tomb
          then st.tombstones - 1 else st.tombstones } := by
      have := oaInsertLoop_placed v rawKey st d st.size 0 none hd
        (by rw [Nat.zero_add]; exact hemp)
        (fun j hj => by rw [Nat.zero_add]; exact hpre j hj)
      simpa [Nat.zero_add, Option.orElse] using this
    have hmnt : oaMaintainAfterInsert v { st with
        table := st.table.set ((firstTombIn v rawKey st 0 d).getD
          (probeIndex v rawKey st.size d)) (.occ rawKey),
        count := st.count + 1,
        tombstones :=
          if slotAt st.table ((firstTombIn v rawKey st 0 d).getD
            (probeIndex v rawKey st.size d)) = .tomb
          then st.tombstones - 1 else st.tombstones } = some { st with
        table := st.table.set ((firstTombIn v rawKey st 0 d).getD
          (probeIndex v rawKey st.size d)) (.occ rawKey),
        count := st.count + 1,
        tombstones :=
          if slotAt st.table ((firstTombIn v rawKey st 0 d).getD
            (probeIndex v rawKey st.size d)) = .tomb
          then st.tombstones - 1 else st.tombstones } := by
      refine oaMaintainAfterInsert_noop v _ ?_ ?_
      · simpa using hm1
      · simp only []
        split
        · intro hcontra
          apply hm2
          omega
        · exact hm2
    refine ⟨?_, ?_, ?_⟩
    · simp only [oaInsert, hk, hens, hloop, hmnt, Option.map_some']
    · intro hnt
      rw [firstTombIn_eq_none v rawKey st d 0 fun j hj => by
        rw [Nat.zero_add]; exact hnt j hj]
      rfl
    · intro j0 hj0 htomb hpre0
      have hft := firstTombIn_eq_some v rawKey st d 0 j0 hj0
        (by rw [Nat.zero_add]; exact htomb)
        (fun j hj => by rw [Nat.zero_add]; exact hpre0 j hj)
      rw [Nat.zero_add] at hft
      rw [hft]
      exact ⟨rfl, htomb⟩

def c4DupState : OAState :=
  { size := 3, table := [.empty, .occ "1", .empty], count := 1, tombstones := 0 }

/-- Witness for the amended C4: inserting the already-present key "1" into a
small linear table leaves the state untouched with status `duplicate`. -/
theorem insert_probe_placement_witness :
    oaInsert .linear 1 c4DupState "1" = some { state := c4DupState, status := .duplicate } :=
  (insert_probe_placement .linear c4DupState "1" 0 (by decide) (by decide) (by decide)).1
    ⟨0, by decide, by decide, fun j hj => absurd hj (by omega)⟩

end InsertClaim

def c5State : OAState :=
  { size := 3, table := [.empty, .occ "1", .empty], count := 1, tombstones := 0 }

/-- C5: open-addressing search is read-only — in this embedding `oaSearch`
takes the state and returns only a status, reflecting that the source never
writes or resizes in `search` — and it probes in strategy order: a probed
`Occupied` slot holding the key yields `found`; reaching an `Empty` slot
yields `missing` immediately; exhausting `size` probe attempts without
hitting an `Empty` slot (or the key) yields `missing`. -/
theorem search_characterization (v : PVariant) (st : OAState) (rawKey : String)
    (hk : normaliseKey rawKey = rawKey) :
    ((∃ d, d < st.size ∧ slotAt st.table (probeIndex v rawKey st.size d) = .occ rawKey ∧
        ∀ j, j < d → slotAt st.table (probeIndex v rawKey st.size j) ≠ .empty ∧
                     slotAt st.table (probeIndex v rawKey st.size j) ≠ .occ rawKey) →
      oaSearch v st rawKey = .found) ∧
    ((∃ d, d < st.size ∧ slotAt st.table (probeIndex v rawKey st.size d) = .empty ∧
        ∀ j, j < d → slotAt st.table (probeIndex v rawKey st.size j) ≠ .empty ∧
                     slotAt st.table (probeIndex v rawKey st.size j) ≠ .occ rawKey) →
      oaSearch v st rawKey = .missing) ∧
    ((∀ d, d < st.size → slotAt st.table (probeIndex v rawKey st.size d) ≠ .empty ∧
        slotAt st.table (probeIndex v rawKey st.size d) ≠ .occ rawKey) →
      oaSearch v st rawKey = .missing) := by
  refine ⟨?_, ?_, ?_⟩
  · rintro ⟨d, hd, hocc, hpre⟩
    unfold oaSearch
    rw [hk]
    refine oaSearchLoop_found v rawKey st st.size 0 ⟨d, hd, ?_, ?_⟩
    · rw [Nat.zero_add]; exact hocc
    · intro j hj; rw [Nat.zero_add]; exact (hpre j hj).1
  · rintro ⟨d, hd, hemp, hpre⟩
    unfold oaSearch
    rw [hk]
    refine oaSearchLoop_missing_at_empty v rawKey st st.size 0 ⟨d, hd, ?_, ?_⟩
    · rw [Nat.zero_add]; exact hemp
    · intro j hj; rw [Nat.zero_add]; exact hpre j hj
  · intro hall
    unfold oaSearch
    rw [hk]
    refine oaSearchLoop_missing_exhaust v rawKey st st.size 0 ?_
    intro d hd
    rw [Nat.zero_add]; exact hall d hd

/-- Witness for C5: the key "1" is found in a table holding it, and the
absent key "2" is reported missing. -/
theorem search_characterization_witness :
    oaSearch .linear c5State "1" = .found ∧ oaSearch .linear c5State "2" = .missing := by
  constructor
  · exact (search_characterization .linear c5State "1" (by decide)).1
      ⟨0, by decide, by decide, fun j hj => absurd hj (by omega)⟩
  · exact (search_characterization .linear c5State "2" (by decide)).2.1
      ⟨1, by decide, by decide, fun j hj => by
        interval_cases j
        exact ⟨by decide, by decide⟩⟩

section RemoveClaim

/-- The state right after a successful removal marks the found slot as a
tombstone, decrements `count` and increments `tombstones`
(script.js:1130-1133). -/
def tombstoned (v : PVariant) (st : OAState) (key : String) (d : Nat) : OAState :=
  { st with
    table := st.table.set (probeIndex v key st.size d) Slot.tomb
    count := st.count - 1
    tombstones := st.tombstones + 1 }

theorem oaRemoveLoop_found (v : PVariant) (key : String) (st : OAState) :
    ∀ d r a, d < r →
      slotAt st.table (probeIndex v key st.size (a + d)) = .occ key →
      (∀ j, j < d → slotAt st.table (probeIndex v key st.size (a + j)) ≠ .empty ∧
                    slotAt st.table (probeIndex v key st.size (a + j)) ≠ .occ key) →
      oaRemoveLoop v key st r a =
        (oaMaintainAfterRemoval v (tombstoned v st key (a + d))).map fun s => (s, .removed) := by
  intro d
  induction d with
  | zero =>
    intro r a hr hocc hpre
    cases r with
    | zero => omega
    | succ r =>
      rw [Nat.add_zero] at hocc ⊢
      simp only [oaRemoveLoop]
      rw [hocc]
      simp [tombstoned]
  | succ d ih =>
    intro r a hr hocc hpre
    cases r with
    | zero => omega
    | succ r =>
      have hpre0 := hpre 0 (by omega)
      rw [Nat.add_zero] at hpre0
      simp only [oaRemoveLoop]
      cases hslot : slotAt st.table (probeIndex v key st.size a) with
      | occ k =>
        have hkne : ¬ k = key := fun hkk => hpre0.2 (by rw [hslot, hkk])
        show (if k = key then _ else oaRemoveLoop v key st r (a + 1)) = _
        rw [if_neg hkne]
        have he : a + (d + 1) = a + 1 + d := by omega
        rw [he] at hocc ⊢
        exact ih r (a + 1) (by omega) hocc fun j hj => by
          have he2 : a + 1 + j = a + (j + 1) := by omega
          rw [he2]; exact hpre (j + 1) (by omega)
      | empty => exact absurd hslot hpre0.1
      | tomb =>
        have he : a + (d + 1) = a + 1 + d := by omega
        rw [he] at hocc ⊢
        exact ih r (a + 1) (by omega) hocc fun j hj => by
          have he2 : a + 1 + j = a + (j + 1) := by omega
          rw [he2]; exact hpre (j + 1) (by omega)

set_option maxRecDepth 4000 in
/-- C6 counterexample: after removing "1" from a size-3 linear table the
tombstone conditions of the compaction branch hold (tombstones = 1 > 0.25·3
and tombstones = 1 > count = 0), yet no compaction occurs — the result keeps
tombstones = 1 — because the source gates both branches of
`maintainAfterRemoval` behind `size > MIN_TABLE_SIZE`, contrary to the
claim's "regardless of any further size condition". -/
theorem min_size_compaction_skipped :
    ((oaInsert .linear 2 (oaFresh 3) "1").bind fun r => oaRemove .linear r.state "1")
      = some ({ size := 3, table := [.empty, .tomb, .empty],
                count := 0, tombstones := 1 }, .removed) ∧
    4 * (1 : Int) > (3 : Int) ∧ (1 : Int) > (0 : Int) := by decide

theorem oaRehash_shape (v : PVariant) (st : OAState) (n : Nat) (st2 : OAState)
    (h : oaRehash v st n = some st2) : st2.size = n ∧ st2.tombstones = 0 := by
  obtain ⟨inv2, _, _, _, _, _⟩ :=
    reinsertAll_of_eq_some v n (collectEntries st.table) _ st2 h (freshInv n)
  exact ⟨inv2.size_eq, inv2.tz⟩

/-- C6 amended: after every successful open-addressing remove (key found at
probe attempt `d`, replaced by a tombstone, count decremented, tombstones
incremented), the shrink policy applies only when `size > 3`: then if
`count > 0` and `count/size < 0.3` and the target
`previousPrime(max(3, floor(size/1.6)))` is smaller than the size, the table
is rehashed to that target; else if `tombstones > 0.25·size` and
`tombstones > count`, a same-size compaction rehash runs (clearing all
tombstones when it completes). At the minimum size 3 neither branch runs —
the claim's "regardless of any further size condition" is refuted by the
counterexample. -/
theorem remove_shrink_policy (v : PVariant) (st : OAState) (rawKey : String)
    (hk : normaliseKey rawKey = rawKey) (d : Nat) (hd : d < st.size)
    (hocc : slotAt st.table (probeIndex v rawKey st.size d) = .occ rawKey)
    (hpre : ∀ j, j < d → slotAt st.table (probeIndex v rawKey st.size j) ≠ .empty ∧
        slotAt st.table (probeIndex v rawKey st.size j) ≠ .occ rawKey) :
    oaRemove v st rawKey =
      (oaMaintainAfterRemoval v (tombstoned v st rawKey d)).map (fun s => (s, .removed)) ∧
    (st.size ≤ 3 →
      oaRemove v st rawKey = some (tombstoned v st rawKey d, .removed)) ∧
    (¬ st.size ≤ 3 →
      (tombstoned v st rawKey d).count > 0 →
      10 * (tombstoned v st rawKey d).count < 3 * (st.size : Int) →
      previousPrime (max 3 (5 * st.size / 8)) < st.size →
      oaRemove v st rawKey =
        (oaRehash v (tombstoned v st rawKey d)
          (previousPrime (max 3 (5 * st.size / 8)))).map (fun s => (s, .removed)) ∧
      ∀ st2, oaRehash v (tombstoned v st rawKey d)
          (previousPrime (max 3 (5 * st.size / 8))) = some st2 →
        st2.size = previousPrime (max 3 (5 * st.size / 8)) ∧ st2.tombstones = 0) ∧
    (¬ st.size ≤ 3 →
      ¬ ((tombstoned v st rawKey d).count > 0 ∧
         10 * (tombstoned v st rawKey d).count < 3 * (st.size : Int) ∧
         previousPrime (max 3 (5 * st.size / 8)) < st.size) →
      4 * (tombstoned v st rawKey d).tombstones > (st.size : Int) →
      (tombstoned v st rawKey d).tombstones > (tombstoned v st rawKey d).count →
      oaRemove v st rawKey =
        (oaRehash v (tombstoned v st rawKey d) st.size).map (fun s => (s, .removed)) ∧
      ∀ st2, oaRehash v (tombstoned v st rawKey d) st.size = some st2 →
        st2.size = st.size ∧ st2.tombstones = 0) := by
  have hbridge : oaRemove v st rawKey =
      (oaMaintainAfterRemoval v (tombstoned v st rawKey d)).map (fun s => (s, .removed)) := by
    unfold oaRemove
    rw [hk]
    have := oaRemoveLoop_found v rawKey st d st.size 0 hd
      (by rw [Nat.zero_add]; exact hocc)
      (fun j hj => by rw [Nat.zero_add]; exact hpre j hj)
    rw [Nat.zero_add] at this
    exact this
  have hsz : (tombstoned v st rawKey d).size = st.size := rfl
  refine ⟨hbridge, ?_, ?_, ?_⟩
  · intro h3
    rw [hbridge]
    unfold oaMaintainAfterRemoval
    rw [hsz, if_pos h3]
    rfl
  · intro h3 hcnt hload htgt
    constructor
    · rw [hbridge]
      unfold oaMaintainAfterRemoval
      rw [hsz, if_neg h3, if_pos ⟨hcnt, hload, htgt⟩]
    · intro st2 h2
      exact oaRehash_shape v _ _ st2 h2
  · intro h3 hnshrink htomb htc
    constructor
    · rw [hbridge]
      unfold oaMaintainAfterRemoval
      rw [hsz, if_neg h3]
      rw [if_neg hnshrink]
      rw [if_pos ⟨htomb, htc⟩]
    · intro st2 h2
      exact oaRehash_shape v _ _ st2 h2

def c6State : OAState :=
  { size := 3, table := [.empty, .occ "1", .empty], count := 1, tombstones := 0 }

/-- Witness for the amended C6: removing "1" from a size-3 linear table
tombstones its slot and, because the size is the minimum 3, runs neither
shrink nor compaction. -/
theorem remove_shrink_policy_witness :
    oaRemove .linear c6State "1" = some (tombstoned .linear c6State "1" 0, .removed) :=
  (remove_shrink_policy .linear c6State "1" (by decide) 0 (by decide) (by decide)
    (fun j hj => absurd hj (by omega))).2.1 (by decide)

end RemoveClaim

section ChainGrowth

theorem nextPrimeAux_pos : ∀ fuel c, 0 < c → 0 < nextPrimeAux fuel c := by
  intro fuel
  induction fuel with
  | zero => intro c _; simp [nextPrimeAux]
  | succ fuel ih =>
    intro c hc
    simp only [nextPrimeAux]
    split
    · omega
    · split
      · omega
      · exact ih (c + 2) (by omega)

theorem nextPrime_pos (n : Nat) : 0 < nextPrime n := by
  unfold nextPrime clampTableSize
  apply nextPrimeAux_pos
  split <;> omega

theorem chInsertInternal_flatten (st : ChainState) (e k : String)
    (hlen : st.table.length = st.size) (hpos : 0 < st.size)
    (h : k ∈ st.table.flatten ∨ k = e) :
    k ∈ (chInsertInternal st e).table.flatten := by
  have hidxe : primaryIndex e st.size < st.table.length := by
    rw [hlen]; exact Nat.mod_lt _ hpos
  have htab : (chInsertInternal st e).table
      = st.table.set (primaryIndex e st.size)
        (st.table.getD (primaryIndex e st.size) [] ++ [e]) := rfl
  have hsetmem : st.table.getD (primaryIndex e st.size) [] ++ [e]
      ∈ (chInsertInternal st e).table := by
    have hmem2 := getD_mem (st.table.set (primaryIndex e st.size)
      (st.table.getD (primaryIndex e st.size) [] ++ [e])) (primaryIndex e st.size) []
      (by simpa using hidxe)
    rw [getD_set_self st.table _ _ _ hidxe] at hmem2
    rw [htab]
    exact hmem2
  rcases h with hmem | heq
  · obtain ⟨b, hb, hkb⟩ := List.mem_flatten.mp hmem
    obtain ⟨i, hi, hgd⟩ := (mem_iff_getD st.table b []).mp hb
    apply List.mem_flatten.mpr
    by_cases hie : i = primaryIndex e st.size
    · refine ⟨st.table.getD (primaryIndex e st.size) [] ++ [e], hsetmem, ?_⟩
      subst hie
      rw [hgd]
      exact List.mem_append_left _ hkb
    · refine ⟨b, ?_, hkb⟩
      rw [htab]
      have hne := getD_set_ne st.table (primaryIndex e st.size) i
        (st.table.getD (primaryIndex e st.size) [] ++ [e]) [] fun hh => hie hh.symm
      have hmem3 := getD_mem (st.table.set (primaryIndex e st.size)
        (st.table.getD (primaryIndex e st.size) [] ++ [e])) i [] (by simpa using hi)
      rw [hne, hgd] at hmem3
      exact hmem3
  · subst heq
    apply List.mem_flatten.mpr
    exact ⟨st.table.getD (primaryIndex k st.size) [] ++ [k], hsetmem,
      List.mem_append_right _ (List.mem_singleton_self _)⟩

theorem chSearch_found_of_mem (st : ChainState) (k : String) (hk : normaliseKey k = k)
    (hmem : k ∈ st.table.getD (primaryIndex k st.size) []) :
    chSearch st k = .found := by
  unfold chSearch
  rw [hk, if_pos hmem]

def chRun (keys : List String) : ChainState :=
  keys.foldl (fun s k => (chInsert s k).1) (chFresh 3)

/-- C7: after every successful chaining insert (the key was appended to its
hash bucket and `count` incremented), the growth policy runs: if
`count/size > 1.15` or the longest chain exceeds 4, and the target
`nextPrime(ceil(size*1.6))` differs from the current size, the table is
rehashed to that target, reinserting every key via `primaryIndex` at the new
size; every previously stored key and the new key remain findable either way.
Concretely (Scenario C): inserting "1","2","3","4" into a fresh chaining
table of size 3 keeps size 3 for the first three inserts, the fourth pushes
the load factor to 4/3 > 1.15 and triggers exactly one rehash to the larger
size 5, after which all four keys are findable. -/
theorem chaining_growth_policy :
    (∀ (st : ChainState) (rawKey : String),
      normaliseKey rawKey = rawKey →
      st.table.length = st.size → 0 < st.size →
      (∀ k : String, k ∈ st.table.flatten → k ∈ st.table.getD (primaryIndex k st.size) []) →
      rawKey ∉ st.table.getD (primaryIndex rawKey st.size) [] →
      chInsert st rawKey = (chMaintainAfterInsert (chInsertInternal st rawKey), .inserted) ∧
      ((20 * (st.count + 1) > 23 * (st.size : Int) ∨ chMaxChain (chInsertInternal st rawKey) > 4) →
        nextPrime ((8 * st.size + 4) / 5) ≠ st.size →
        (chInsert st rawKey).1.size = nextPrime ((8 * st.size + 4) / 5)) ∧
      (∀ k, normaliseKey k = k → (k ∈ st.table.flatten ∨ k = rawKey) →
        chSearch (chInsert st rawKey).1 k = .found)) ∧
    ((chRun ["1"]).size = 3 ∧ (chRun ["1", "2"]).size = 3 ∧
     (chRun ["1", "2", "3"]).size = 3 ∧ (chRun ["1", "2", "3", "4"]).size = 5 ∧ 3 < 5 ∧
     (chInsert (chRun ["1", "2", "3"]) "4").2 = .inserted ∧
     chSearch (chRun ["1", "2", "3", "4"]) "1" = .found ∧
     chSearch (chRun ["1", "2", "3", "4"]) "2" = .found ∧
     chSearch (chRun ["1", "2", "3", "4"]) "3" = .found ∧
     chSearch (chRun ["1", "2", "3", "4"]) "4" = .found) := by
  constructor
  · intro st rawKey hk hlen hpos hplace hnotmem
    have hins : chInsert st rawKey = (chMaintainAfterInsert (chInsertInternal st rawKey), .inserted) := by
      unfold chInsert chInsertInternal
      rw [hk, if_neg hnotmem]
    have hsz1 : (chInsertInternal st rawKey).size = st.size := rfl
    have hc1 : (chInsertInternal st rawKey).count = st.count + 1 := rfl
    have hlen1 : (chInsertInternal st rawKey).table.length = (chInsertInternal st rawKey).size := by
      rw [chInsertInternal_length, hsz1, hlen]
    refine ⟨hins, ?_, ?_⟩
    · intro hcond htgt
      rw [hins]
      simp only []
      unfold chMaintainAfterInsert
      rw [hsz1, hc1, if_pos ⟨hcond, htgt⟩, chRehash_size]
    · intro k hkk hmem
      have hmem1 : k ∈ (chInsertInternal st rawKey).table.flatten :=
        chInsertInternal_flatten st rawKey k hlen hpos hmem
      rw [hins]
      simp only []
      unfold chMaintainAfterInsert
      rw [hsz1, hc1]
      split
      · refine chSearch_found_of_mem _ k hkk ?_
        rw [chRehash_size (chInsertInternal st rawKey) (nextPrime ((8 * st.size + 4) / 5))]
        exact chRehash_mem (chInsertInternal st rawKey) (nextPrime ((8 * st.size + 4) / 5))
          (nextPrime_pos _) k hmem1
      · refine chSearch_found_of_mem _ k hkk ?_
        rw [hsz1]
        rcases hmem with hmem0 | heq
        · exact chInsertInternal_mem st rawKey k hlen hpos (Or.inl (hplace k hmem0))
        · exact chInsertInternal_mem st rawKey k hlen hpos (Or.inr heq)
  · refine ⟨by decide, by decide, by decide, by decide, by decide, by decide,
      by decide, by decide, by decide, by decide⟩

/-- Witness for C7: inserting "1" into an empty size-3 chaining table keeps it
findable; the scenario conjunct of the theorem is itself closed. -/
theorem chaining_growth_policy_witness :
    chSearch (chInsert (chFresh 3) "1").1 "1" = .found :=
  (chaining_growth_policy.1 (chFresh 3) "1" (by decide) (by decide) (by decide)
    (fun k hk => by simp [chFresh, List.replicate] at hk) (by decide)).2.2 "1"
    (by decide) (Or.inr rfl)

end ChainGrowth

/-- C8: for every key and every table size ≥ 2, `secondaryStep` returns a
value in [1, size-1] — in particular never 0 — and for size 7 the step lies
in [1, 6] for every key (Scenario D). -/
theorem secondaryStep_range :
    (∀ (rawKey : String) (size : Nat), 2 ≤ size →
      1 ≤ secondaryStep rawKey size ∧ secondaryStep rawKey size ≤ size - 1) ∧
    (∀ rawKey : String, 1 ≤ secondaryStep rawKey 7 ∧ secondaryStep rawKey 7 ≤ 6) :=
  ⟨fun rk s hs => secondaryStep_bound rk s hs,
   fun rk => secondaryStep_bound rk 7 (by norm_num)⟩

/-- Witness for C8 at a concrete key and size. -/
theorem secondaryStep_range_witness :
    1 ≤ secondaryStep "1" 7 ∧ secondaryStep "1" 7 ≤ 6 :=
  secondaryStep_range.1 "1" 7 (by norm_num)

/-- C10: the auto-resizing open-addressing insert never returns status
`full`, although `full` is part of the public status enum: whenever the call
returns, its status is `inserted` or `duplicate`; the fully-saturated branch
rehashes and retries instead of reporting `full`. -/
theorem insert_never_status_full (v : PVariant) :
    ∀ (fuel : Nat) (st : OAState) (rawKey : String) (res : OAResult),
      oaInsert v fuel st rawKey = some res →
      res.status = .inserted ∨ res.status = .duplicate := by
  intro fuel
  induction fuel with
  | zero => intro st rk res h; simp [oaInsert] at h
  | succ fuel ih =>
    intro st rk res h
    simp only [oaInsert] at h
    cases hens : oaEnsureCapacity v st with
    | none => rw [hens] at h; simp at h
    | some st1 =>
      rw [hens] at h
      simp only at h
      cases hloop : oaInsertLoop v (normaliseKey rk) st1 st1.size 0 none with
      | dup st2 =>
        rw [hloop] at h
        simp only [Option.some.injEq] at h
        rw [← h]
        exact Or.inr rfl
      | placed st2 =>
        rw [hloop] at h
        simp only [Option.map_eq_some'] at h
        obtain ⟨st3, _, hres⟩ := h
        rw [← hres]
        exact Or.inl rfl
      | exhausted ft =>
        cases ft with
        | some ftIdx =>
          rw [hloop] at h
          simp only [Option.map_eq_some'] at h
          obtain ⟨st3, _, hres⟩ := h
          rw [← hres]
          exact Or.inl rfl
        | none =>
          rw [hloop] at h
          simp only at h
          cases hreh : oaRehash v st1 (nextPrime ((8 * st1.size + 4) / 5)) with
          | none => rw [hreh] at h; simp at h
          | some st2 =>
            rw [hreh] at h
            simp only at h
            exact ih st2 (normaliseKey rk) res h

def c10Res : OAResult :=
  { state := { size := 3, table := [.empty, .empty, .occ "5"], count := 1, tombstones := 0 },
    status := .inserted }

/-- Witness for C10: a concrete returning insert whose status is `inserted`. -/
theorem insert_never_status_full_witness :
    c10Res.status = .inserted ∨ c10Res.status = .duplicate :=
  insert_never_status_full .linear 1 (oaFresh 3) "5" c10Res (by decide)

section DigitLemmas

theorem natDigitsAux_fuel_irrel : ∀ f1 f2 n, n < f1 → n < f2 →
    natDigitsAux f1 n = natDigitsAux f2 n := by
  intro f1
  induction f1 with
  | zero => intro f2 n h1 _; omega
  | succ f1 ih =>
    intro f2 n h1 h2
    cases f2 with
    | zero => omega
    | succ f2 =>
      simp only [natDigitsAux]
      by_cases h10 : n < 10
      · rw [if_pos h10, if_pos h10]
      · rw [if_neg h10, if_neg h10]
        have hdiv : n / 10 < n := Nat.div_lt_self (by omega) (by omega)
        rw [ih f2 (n / 10) (by omega) (by omega)]

theorem natDigits_lt10 (n : Nat) (h : n < 10) : natDigits n = [Char.ofNat (48 + n)] := by
  simp [natDigits, natDigitsAux, h]

theorem natDigits_ge10 (n : Nat) (h : 10 ≤ n) :
    natDigits n = natDigits (n / 10) ++ [Char.ofNat (48 + n % 10)] := by
  have hdiv : n / 10 < n := Nat.div_lt_self (by omega) (by omega)
  unfold natDigits
  conv_lhs => rw [show n + 1 = n + 1 from rfl]
  rw [show natDigitsAux (n + 1) n
      = if n < 10 then [Char.ofNat (48 + n)]
        else natDigitsAux n (n / 10) ++ [Char.ofNat (48 + n % 10)] from rfl]
  rw [if_neg (by omega)]
  rw [natDigitsAux_fuel_irrel n (n / 10 + 1) (n / 10) (by omega) (by omega)]

theorem natDigits_ne_nil (n : Nat) : natDigits n ≠ [] := by
  by_cases h : n < 10
  · rw [natDigits_lt10 n h]; simp
  · rw [natDigits_ge10 n (by omega)]; simp

theorem toNat_digitChar (m : Nat) (h : m ≤ 9) : (Char.ofNat (48 + m)).toNat = 48 + m := by
  interval_cases m <;> decide

theorem isDigit_digitChar (m : Nat) (h : m ≤ 9) : (Char.ofNat (48 + m)).isDigit = true := by
  interval_cases m <;> decide

theorem natDigits_all_digit (n : Nat) : ∀ c ∈ natDigits n, c.isDigit = true := by
  induction n using Nat.strong_induction_on with
  | _ n ih =>
    by_cases h : n < 10
    · rw [natDigits_lt10 n h]
      intro c hc
      simp at hc
      rw [hc]
      exact isDigit_digitChar n (by omega)
    · rw [natDigits_ge10 n (by omega)]
      intro c hc
      rcases List.mem_append.mp hc with hc1 | hc2
      · exact ih (n / 10) (Nat.div_lt_self (by omega) (by omega)) c hc1
      · simp at hc2
        rw [hc2]
        exact isDigit_digitChar (n % 10) (by omega)

theorem decValue_append (ds : List Char) (c : Char) :
    decValue (ds ++ [c]) = decValue ds * 10 + (c.toNat - 48) := by
  simp [decValue, List.foldl_append]

theorem decValue_natDigits (n : Nat) : decValue (natDigits n) = n := by
  induction n using Nat.strong_induction_on with
  | _ n ih =>
    by_cases h : n < 10
    · rw [natDigits_lt10 n h]
      have := toNat_digitChar n (by omega)
      simp [decValue, this]
    · rw [natDigits_ge10 n (by omega), decValue_append,
        ih (n / 10) (Nat.div_lt_self (by omega) (by omega)),
        toNat_digitChar (n % 10) (by omega)]
      omega

theorem natDigits_head_ne_zero (n : Nat) (hn : 0 < n) :
    ∀ c ds, natDigits n = c :: ds → c ≠ '0' := by
  induction n using Nat.strong_induction_on with
  | _ n ih =>
    intro c ds hds
    by_cases h : n < 10
    · rw [natDigits_lt10 n h] at hds
      injection hds with hc _
      rw [← hc]
      have h9 : n ≤ 9 := by omega
      have h1 : 1 ≤ n := hn
      interval_cases n <;> decide
    · rw [natDigits_ge10 n (by omega)] at hds
      obtain ⟨c', ds', hsplit⟩ : ∃ c' ds', natDigits (n / 10) = c' :: ds' := by
        cases hnd : natDigits (n / 10) with
        | nil => exact absurd hnd (natDigits_ne_nil _)
        | cons a l => exact ⟨a, l, rfl⟩
      rw [hsplit] at hds
      simp only [List.cons_append] at hds
      injection hds with hc _
      rw [← hc]
      exact ih (n / 10) (Nat.div_lt_self (by omega) (by omega))
        (by omega) c' ds' hsplit

end DigitLemmas

section DoubleModel

theorem bitLenAux_zero (fuel : Nat) : bitLenAux fuel 0 = 0 := by
  cases fuel <;> rfl

theorem bitLenAux_fuel_irrel : ∀ f1 f2 n, n ≤ f1 → n ≤ f2 →
    bitLenAux f1 n = bitLenAux f2 n := by
  intro f1
  induction f1 with
  | zero =>
    intro f2 n h1 _
    have hn : n = 0 := by omega
    rw [hn, bitLenAux_zero, bitLenAux_zero]
  | succ f1 ih =>
    intro f2 n h1 h2
    by_cases hn : n = 0
    · rw [hn, bitLenAux_zero, bitLenAux_zero]
    · cases f2 with
      | zero => omega
      | succ f2 =>
        simp only [bitLenAux, if_neg hn]
        have hd : n / 2 < n := Nat.div_lt_self (by omega) (by omega)
        rw [ih f2 (n / 2) (by omega) (by omega)]

theorem bitLen_succ (n : Nat) (h : 0 < n) : bitLen n = bitLen (n / 2) + 1 := by
  unfold bitLen
  cases n with
  | zero => omega
  | succ m =>
    simp only [bitLenAux, if_neg (by omega : ¬ m + 1 = 0)]
    have hd : (m + 1) / 2 ≤ m := by omega
    rw [bitLenAux_fuel_irrel m ((m + 1) / 2) ((m + 1) / 2) hd (le_refl _)]

theorem bitLen_upper (n : Nat) : n < 2 ^ bitLen n := by
  induction n using Nat.strong_induction_on with
  | _ n ih =>
    rcases Nat.eq_zero_or_pos n with h0 | hp
    · subst h0; decide
    · rw [bitLen_succ n hp, pow_succ]
      have := ih (n / 2) (Nat.div_lt_self hp (by omega))
      omega

theorem bitLen_lower (n : Nat) (h : 0 < n) : 2 ^ (bitLen n - 1) ≤ n := by
  induction n using Nat.strong_induction_on with
  | _ n ih =>
    by_cases h1 : n = 1
    · subst h1; decide
    · have hd2 : 0 < n / 2 := by omega
      have ihd := ih (n / 2) (Nat.div_lt_self (by omega) (by omega)) hd2
      rw [bitLen_succ n (by omega)]
      have hpos : 0 < bitLen (n / 2) := by
        rw [bitLen_succ (n / 2) hd2]; omega
      have he : bitLen (n / 2) + 1 - 1 = (bitLen (n / 2) - 1) + 1 := by omega
      rw [he, pow_succ]
      omega

theorem roundToDouble53_small (n : Nat) (h : n < 2 ^ 53) : roundToDouble53 n = n := by
  unfold roundToDouble53
  rw [if_pos h]

theorem roundToDouble53_big (n : Nat) (h : 2 ^ 53 ≤ n) : 2 ^ 53 ≤ roundToDouble53 n := by
  have hbl : 54 ≤ bitLen n := by
    by_contra hlt
    have hub := bitLen_upper n
    have hmono : (2 : Nat) ^ bitLen n ≤ 2 ^ 53 := Nat.pow_le_pow_right (by omega) (by omega)
    omega
  have hql : 2 ^ 52 ≤ n / 2 ^ (bitLen n - 53) := by
    have hlow := bitLen_lower n (by omega)
    have hdd := Nat.div_le_div_right (c := 2 ^ (bitLen n - 53)) hlow
    have hpd : 2 ^ (bitLen n - 1) / 2 ^ (bitLen n - 53) = 2 ^ 52 := by
      rw [Nat.pow_div (by omega) (by omega)]
      congr 1
      omega
    rw [hpd] at hdd
    exact hdd
  have hpe : (2 : Nat) ^ 53 ≤ 2 ^ 52 * 2 ^ (bitLen n - 53) := by
    calc (2 : Nat) ^ 53 ≤ 2 ^ (52 + (bitLen n - 53)) :=
          Nat.pow_le_pow_right (by omega) (by omega)
      _ = 2 ^ 52 * 2 ^ (bitLen n - 53) := by rw [pow_add]
  unfold roundToDouble53
  rw [if_neg (by omega)]
  dsimp only
  have hbase : (2 : Nat) ^ 53 ≤ n / 2 ^ (bitLen n - 53) * 2 ^ (bitLen n - 53) :=
    le_trans hpe (mul_le_mul_right' hql _)
  split
  · calc (2 : Nat) ^ 53 ≤ n / 2 ^ (bitLen n - 53) * 2 ^ (bitLen n - 53) := hbase
      _ ≤ (n / 2 ^ (bitLen n - 53) + 1) * 2 ^ (bitLen n - 53) :=
          mul_le_mul_right' (by omega) _
  · exact hbase

theorem shortestAux_exact_of_small (v n : Nat) (h53 : v < 2 ^ 53) :
    ∀ fuel k, (shortestAux v n k fuel).1 * 10 ^ (shortestAux v n k fuel).2 = v := by
  intro fuel
  induction fuel with
  | zero => intro k; simp [shortestAux]
  | succ fuel ih =>
    intro k
    by_cases hk : n ≤ k
    · simp [shortestAux, hk]
    · by_cases hacc : roundToDouble53 (shortestCand v n k * 10 ^ (n - k)) = v
      · have hlt : shortestCand v n k * 10 ^ (n - k) < 2 ^ 53 := by
          by_contra hge
          have hbig := roundToDouble53_big _ (by omega :
            2 ^ 53 ≤ shortestCand v n k * 10 ^ (n - k))
          rw [hacc] at hbig
          omega
        have heqc : shortestCand v n k * 10 ^ (n - k) = v := by
          rw [roundToDouble53_small _ hlt] at hacc
          exact hacc
        simp only [shortestAux, if_neg hk, if_pos hacc]
        exact heqc
      · simp only [shortestAux, if_neg hk, if_neg hacc]
        exact ih (k + 1)

theorem stripTZAux_inv : ∀ fuel s e,
    (stripTZAux fuel s e).1 * 10 ^ (stripTZAux fuel s e).2 = s * 10 ^ e := by
  intro fuel
  induction fuel with
  | zero => intro s e; rfl
  | succ fuel ih =>
    intro s e
    by_cases h : s % 10 = 0 ∧ s ≠ 0
    · simp only [stripTZAux, if_pos h]
      rw [ih (s / 10) (e + 1)]
      have h10 : s / 10 * 10 = s := Nat.div_mul_cancel (Nat.dvd_of_mod_eq_zero h.1)
      calc s / 10 * 10 ^ (e + 1) = s / 10 * 10 * 10 ^ e := by ring
        _ = s * 10 ^ e := by rw [h10]
    · simp only [stripTZAux, if_neg h]

theorem stripTZ_inv (p : Nat × Nat) :
    (stripTZ p).1 * 10 ^ (stripTZ p).2 = p.1 * 10 ^ p.2 :=
  stripTZAux_inv p.1 p.1 p.2

theorem shortestRepr_exact_of_small (v : Nat) (h53 : v < 2 ^ 53) :
    (stripTZ (shortestRepr v)).1 * 10 ^ (stripTZ (shortestRepr v)).2 = v := by
  rw [stripTZ_inv]
  unfold shortestRepr
  exact shortestAux_exact_of_small v (natDigits v).length h53 (natDigits v).length 1

theorem natDigits_length_le (v : Nat) :
    ∀ m, 0 < m → v < 10 ^ m → (natDigits v).length ≤ m := by
  induction v using Nat.strong_induction_on with
  | _ v ih =>
    intro m hm h
    by_cases hv : v < 10
    · rw [natDigits_lt10 v hv]
      simpa using hm
    · rw [natDigits_ge10 v (by omega), List.length_append]
      have hm2 : 2 ≤ m := by
        by_contra hc
        have hm1 : m = 1 := by omega
        rw [hm1, pow_one] at h
        omega
      have h10 : 10 ^ (m - 1) * 10 = 10 ^ m := by
        rw [← pow_succ]
        congr 1
        omega
      have hdiv : v / 10 < 10 ^ (m - 1) := by
        rw [Nat.div_lt_iff_lt_mul (by omega), h10]
        exact h
      have hrec := ih (v / 10) (Nat.div_lt_self (by omega) (by omega)) (m - 1)
        (by omega) hdiv
      simp only [List.length_cons, List.length_nil]
      omega

theorem natDigits_mul_pow10 (s : Nat) (hs : 0 < s) :
    ∀ e, natDigits (s * 10 ^ e) = natDigits s ++ List.replicate e '0' := by
  intro e
  induction e with
  | zero => simp
  | succ e ih =>
    have hval : s * 10 ^ (e + 1) = s * 10 ^ e * 10 := by ring
    have h1 : 1 ≤ s * 10 ^ e := Nat.mul_pos hs (pow_pos (by omega) e)
    have hge : 10 ≤ s * 10 ^ e * 10 := by omega
    rw [hval, natDigits_ge10 _ hge, Nat.mul_div_cancel _ (by omega), Nat.mul_mod_left,
      ih, List.append_assoc]
    congr 1
    rw [show Char.ofNat (48 + 0) = '0' from rfl, List.replicate_succ']

theorem jsRenderNat_small (v : Nat) (h0 : 0 < v) (h53 : v < 2 ^ 53) :
    jsRenderNat v = natDigits v := by
  rcases hsr : stripTZ (shortestRepr v) with ⟨s, e⟩
  have hinv : s * 10 ^ e = v := by
    have h := shortestRepr_exact_of_small v h53
    rw [hsr] at h
    exact h
  have hpos : 0 < s := by
    rcases Nat.eq_zero_or_pos s with hz | hp
    · rw [hz] at hinv; simp at hinv; omega
    · exact hp
  have hdig : natDigits v = natDigits s ++ List.replicate e '0' := by
    rw [← hinv]
    exact natDigits_mul_pow10 s hpos e
  have hlen : (natDigits s).length + e = (natDigits v).length := by
    rw [hdig, List.length_append, List.length_replicate]
  have hle16 : (natDigits v).length ≤ 16 :=
    natDigits_length_le v 16 (by omega) (lt_of_lt_of_le h53 (by decide))
  simp only [jsRenderNat]
  rw [hsr]
  dsimp only
  rw [if_pos (by omega)]
  exact hdig.symm

theorem renderParsedInt_small_pos (m : Nat) (hm : m < 2 ^ 53) :
    renderParsedInt false m = canonicalIntString (m : Int) := by
  have hof : ¬ jsOverflowBound ≤ m := by
    have h1 : (2 : Nat) ^ 53 ≤ jsOverflowBound := by decide
    omega
  rcases Nat.eq_zero_or_pos m with h0 | hp
  · subst h0; decide
  · unfold renderParsedInt canonicalIntString
    rw [if_neg hof, roundToDouble53_small m hm, if_neg (by omega : ¬ m = 0),
      if_neg (by decide : ¬ (false = true)), if_neg (by omega : ¬ (m : Int) < 0),
      Int.toNat_ofNat, jsRenderNat_small m hp hm]

theorem renderParsedInt_small_neg (m : Nat) (hm : m < 2 ^ 53) :
    renderParsedInt true m = canonicalIntString (-(m : Int)) := by
  have hof : ¬ jsOverflowBound ≤ m := by
    have h1 : (2 : Nat) ^ 53 ≤ jsOverflowBound := by decide
    omega
  rcases Nat.eq_zero_or_pos m with h0 | hp
  · subst h0; decide
  · unfold renderParsedInt canonicalIntString
    have habs : (-(m : Int)).natAbs = m := by omega
    rw [if_neg hof, roundToDouble53_small m hm, if_neg (by omega : ¬ m = 0),
      if_pos (rfl : true = true), if_pos (by omega : -(m : Int) < 0),
      habs, jsRenderNat_small m hp hm]

theorem exactIntVal_minus (key : String) (ds : List Char) (heq : key.data = '-' :: ds) :
    exactIntVal key = -(decValue ds : Int) := by
  unfold exactIntVal
  split
  next ds2 heq2 =>
    rw [heq] at heq2
    injection heq2 with _ h2
    rw [h2]
  next hno => exact absurd heq (hno ds)

theorem exactIntVal_no_minus (key : String) (hno : ∀ ds, key.data ≠ '-' :: ds) :
    exactIntVal key = (decValue key.data : Int) := by
  unfold exactIntVal
  split
  next ds2 heq2 => exact absurd heq2 (hno ds2)
  next => rfl

theorem jsStringOfParseInt_minus (key : String) (ds : List Char)
    (heq : key.data = '-' :: ds) :
    jsStringOfParseInt key = renderParsedInt true (decValue ds) := by
  unfold jsStringOfParseInt
  split
  next ds2 heq2 =>
    rw [heq] at heq2
    injection heq2 with _ h2
    rw [h2]
  next hno => exact absurd heq (hno ds)

theorem jsStringOfParseInt_no_minus (key : String)
    (hno : ∀ ds, key.data ≠ '-' :: ds) :
    jsStringOfParseInt key = renderParsedInt false (decValue key.data) := by
  unfold jsStringOfParseInt
  split
  next ds2 heq2 => exact absurd heq2 (hno ds2)
  next => rfl

theorem jsStringOfParseInt_small (key : String)
    (hsm : (exactIntVal key).natAbs < 2 ^ 53) :
    jsStringOfParseInt key = canonicalIntString (exactIntVal key) := by
  by_cases hminus : ∃ ds, key.data = '-' :: ds
  · obtain ⟨ds, heq⟩ := hminus
    rw [exactIntVal_minus key ds heq] at hsm ⊢
    rw [jsStringOfParseInt_minus key ds heq]
    have hm : decValue ds < 2 ^ 53 := by simpa using hsm
    exact renderParsedInt_small_neg (decValue ds) hm
  · push_neg at hminus
    rw [exactIntVal_no_minus key hminus] at hsm ⊢
    rw [jsStringOfParseInt_no_minus key hminus]
    have hm : decValue key.data < 2 ^ 53 := by simpa using hsm
    exact renderParsedInt_small_pos (decValue key.data) hm

end DoubleModel

section NormaliseClaim

theorem isIntLiteral_cons_digit (c : Char) (ds : List Char) (hc : c.isDigit = true)
    (hall : ds.all Char.isDigit = true) :
    isIntLiteral (String.mk (c :: ds)) = true := by
  unfold isIntLiteral
  split
  next ds2 heq =>
    have hcm : c = '-' := by
      have : c :: ds = '-' :: ds2 := heq
      injection this
    rw [hcm] at hc
    exact absurd hc (by decide)
  next heq =>
    simp only [List.isEmpty_cons, List.all_cons, hc, hall]
    rfl

theorem isIntLiteral_neg_digits (ds : List Char) (hne : ds ≠ [])
    (hall : ds.all Char.isDigit = true) :
    isIntLiteral (String.mk ('-' :: ds)) = true := by
  unfold isIntLiteral
  split
  next ds2 heq =>
    have hds : ds = ds2 := by
      have : '-' :: ds = '-' :: ds2 := heq
      injection this
    subst hds
    cases ds with
    | nil => exact absurd rfl hne
    | cons a l => simpa using hall
  next hno =>
    exact absurd rfl (hno ds)

theorem exactIntVal_cons_digit (c : Char) (ds : List Char) (hc : c.isDigit = true) :
    exactIntVal (String.mk (c :: ds)) = (decValue (c :: ds) : Int) := by
  unfold exactIntVal
  split
  next ds2 heq =>
    have hcm : c = '-' := by
      have : c :: ds = '-' :: ds2 := heq
      injection this
    rw [hcm] at hc
    exact absurd hc (by decide)
  next => rfl

theorem exactIntVal_neg_digits (ds : List Char) :
    exactIntVal (String.mk ('-' :: ds)) = -(decValue ds : Int) := by
  unfold exactIntVal
  split
  next ds2 heq =>
    have hds : ds = ds2 := by
      have : '-' :: ds = '-' :: ds2 := heq
      injection this
    rw [hds]
  next hno =>
    exact absurd rfl (hno ds)

theorem canonicalIntString_eq_nonneg (i : Int) (h : ¬ i < 0) :
    canonicalIntString i = String.mk (natDigits i.toNat) := by
  unfold canonicalIntString
  rw [if_neg h]

theorem canonicalIntString_eq_neg (i : Int) (h : i < 0) :
    canonicalIntString i = String.mk ('-' :: natDigits i.natAbs) := by
  unfold canonicalIntString
  rw [if_pos h]

theorem natDigits_head_digit (n : Nat) (c : Char) (ds : List Char)
    (h : natDigits n = c :: ds) : c.isDigit = true :=
  natDigits_all_digit n c (by rw [h]; exact List.mem_cons_self _ _)

theorem natDigits_all_digit_bool (n : Nat) : (natDigits n).all Char.isDigit = true := by
  rw [List.all_eq_true]
  exact natDigits_all_digit n

theorem isIntLiteral_canonicalIntString (i : Int) : isIntLiteral (canonicalIntString i) = true := by
  by_cases h : i < 0
  · rw [canonicalIntString_eq_neg i h]
    exact isIntLiteral_neg_digits _ (natDigits_ne_nil _) (natDigits_all_digit_bool _)
  · rw [canonicalIntString_eq_nonneg i h]
    cases hnd : natDigits i.toNat with
    | nil => exact absurd hnd (natDigits_ne_nil _)
    | cons c ds =>
      refine isIntLiteral_cons_digit c ds (natDigits_head_digit _ _ _ hnd) ?_
      have hb := natDigits_all_digit_bool i.toNat
      rw [hnd, List.all_cons] at hb
      exact (Bool.and_eq_true_iff.mp hb).2

theorem exactIntVal_canonicalIntString (i : Int) : exactIntVal (canonicalIntString i) = i := by
  by_cases h : i < 0
  · rw [canonicalIntString_eq_neg i h, exactIntVal_neg_digits, decValue_natDigits]
    omega
  · rw [canonicalIntString_eq_nonneg i h]
    cases hnd : natDigits i.toNat with
    | nil => exact absurd hnd (natDigits_ne_nil _)
    | cons c ds =>
      rw [exactIntVal_cons_digit c ds (natDigits_head_digit _ _ _ hnd), ← hnd,
        decValue_natDigits]
      omega

theorem canonicalIntString_no_leading_zeros (i : Int) :
    ∀ c ds, (canonicalIntString i).data = c :: ds →
      (c = '0' → ds = []) ∧ (c = '-' → ∀ c2 ds2, ds = c2 :: ds2 → c2 ≠ '0') := by
  intro c ds hds
  by_cases h : i < 0
  · rw [canonicalIntString_eq_neg i h] at hds
    have hdata : '-' :: natDigits i.natAbs = c :: ds := hds
    have hc : c = '-' := by injection hdata with h1 _; exact h1.symm
    have hdsv : ds = natDigits i.natAbs := by injection hdata with _ h2; exact h2.symm
    constructor
    · intro hc0; rw [hc0] at hc; exact absurd hc.symm (by decide)
    · intro _ c2 ds2 hds2
      refine natDigits_head_ne_zero i.natAbs (by omega) c2 ds2 ?_
      rw [← hdsv]; exact hds2
  · rw [canonicalIntString_eq_nonneg i h] at hds
    have hdata : natDigits i.toNat = c :: ds := hds
    constructor
    · intro hc0
      by_cases hz : i.toNat = 0
      · rw [hz, natDigits_lt10 0 (by omega)] at hdata
        injection hdata with _ h2; exact h2.symm
      · exact absurd hc0 (natDigits_head_ne_zero i.toNat (by omega) c ds hdata)
    · intro hcm
      have := natDigits_head_digit _ _ _ hdata
      rw [hcm] at this
      exact absurd this (by decide)

/-- C9 counterexample: the claim reads normalization as producing "the
canonical base-10 string of the parsed integer", but `parseInt` runs through
IEEE-754 doubles. Above `2 ^ 53` it rounds: "9007199254740993" (2^53 + 1)
normalizes to "9007199254740992", which is neither the canonical rendering of
the written integer nor a round-trip to the same value. And from 10^21 on,
`String` renders the double in exponential form: "1" followed by 22 zeros
normalizes to "1e+22", which is not a base-10 integer literal at all. -/
theorem normaliseKey_double_semantics_counterexample :
    normaliseKey "9007199254740993" = "9007199254740992" ∧
    normaliseKey "9007199254740993" ≠
      canonicalIntString (exactIntVal (jsTrim "9007199254740993")) ∧
    exactIntVal (normaliseKey "9007199254740993") ≠
      exactIntVal (jsTrim "9007199254740993") ∧
    isIntLiteral (jsTrim "10000000000000000000000") = true ∧
    normaliseKey "10000000000000000000000" = "1e+22" ∧
    isIntLiteral (normaliseKey "10000000000000000000000") = false := by
  refine ⟨by decide, by decide, by decide, by decide, by decide, by decide⟩

/-- C9 (amended): key normalization is a pure total function (a Lean function
by construction): the raw input is trimmed; if the trimmed text matches
`^-?[0-9]+$` AND the literal's integer magnitude is below `2 ^ 53` (the range
in which `parseInt`'s double is exact and `String` prints positionally), the
result is the canonical base-10 rendering of the parsed integer — still an
integer literal, parsing back to the same value, with no insignificant
leading zeros and no "-0" — otherwise, for a non-matching trimmed text, the
trimmed text is returned unchanged, and empty or whitespace-only input yields
the empty string without failure. Beyond `2 ^ 53` the double rounds, and from
10^21 on `String` switches to exponential form (see the counterexample). -/
theorem normaliseKey_canonical_small :
    (∀ raw : String, isIntLiteral (jsTrim raw) = false → normaliseKey raw = jsTrim raw) ∧
    (∀ raw : String, jsTrim raw = "" → normaliseKey raw = "") ∧
    (∀ raw : String, isIntLiteral (jsTrim raw) = true →
      (exactIntVal (jsTrim raw)).natAbs < 2 ^ 53 →
      normaliseKey raw = canonicalIntString (exactIntVal (jsTrim raw)) ∧
      isIntLiteral (normaliseKey raw) = true ∧
      exactIntVal (normaliseKey raw) = exactIntVal (jsTrim raw) ∧
      (∀ c ds, (normaliseKey raw).data = c :: ds →
        (c = '0' → ds = []) ∧
        (c = '-' → ∀ c2 ds2, ds = c2 :: ds2 → c2 ≠ '0'))) ∧
    normaliseKey " 007" = "7" ∧ normaliseKey " -0 " = "0" ∧
    normaliseKey "  a b " = "a b" := by
  have hbase : ∀ raw : String, isIntLiteral (jsTrim raw) = true →
      (exactIntVal (jsTrim raw)).natAbs < 2 ^ 53 →
      normaliseKey raw = canonicalIntString (exactIntVal (jsTrim raw)) := by
    intro raw h hsm
    unfold normaliseKey
    rw [if_pos h]
    exact jsStringOfParseInt_small (jsTrim raw) hsm
  refine ⟨?_, ?_, ?_, by decide, by decide, by decide⟩
  · intro raw h
    unfold normaliseKey
    rw [if_neg (by rw [h]; simp)]
  · intro raw h
    unfold normaliseKey
    rw [h]
    rfl
  · intro raw h hsm
    have heq := hbase raw h hsm
    refine ⟨heq, ?_, ?_, ?_⟩
    · rw [heq]; exact isIntLiteral_canonicalIntString _
    · rw [heq]; exact exactIntVal_canonicalIntString _
    · rw [heq]; exact canonicalIntString_no_leading_zeros _

/-- Witness for the amended C9 at the spec's own example "007" (here with
surrounding whitespace, magnitude far below 2^53): the result is the
canonical rendering of the parsed integer, still an integer literal, and
parses back to the same value. -/
theorem normaliseKey_canonical_small_witness :
    normaliseKey " 007" = canonicalIntString (exactIntVal (jsTrim " 007")) ∧
    isIntLiteral (normaliseKey " 007") = true ∧
    exactIntVal (normaliseKey " 007") = exactIntVal (jsTrim " 007") := by
  have h := normaliseKey_canonical_small.2.2.1 " 007" (by decide) (by decide)
  exact ⟨h.1, h.2.1, h.2.2.1⟩

end NormaliseClaim
